import Mathlib

/-
  Verification of the toml11 serializer core (src/include/toml11/serializer.hpp)
  against its natural-language specification.

  The development is a shallow embedding: the C++ serializer class is
  translated into pure Lean functions.  Strings are `List Char`; the
  `std::ostringstream` building is modelled by list concatenation; C++
  exceptions are modelled by `Except` with an error-kind enumeration;
  the recursive dispatch through `operator()(const value_type&)` is
  modelled by a fuel-indexed function `serialize_value` (the fuel only
  bounds the recursion depth; running out of fuel is a distinguished
  error that never occurs for fuel larger than the value's depth).
-/

set_option autoImplicit false

namespace Toml

/-- The double-quote character, written numerically to keep source lines
plain. -/
def quoteC : Char := Char.ofNat 34

/-- The single-quote character. -/
def squoteC : Char := Char.ofNat 39

/-- The backslash character. -/
def bslashC : Char := Char.ofNat 92

/-- Left curly brace character. -/
def lcurlC : Char := Char.ofNat 123

/-- Right curly brace character. -/
def rcurlC : Char := Char.ofNat 125

/-- Pad a character list on the left with copies of `c` up to width `w`
(the behaviour of `std::setw` with right adjustment and fill `c`). -/
def pad_left (c : Char) (w : Nat) (l : List Char) : List Char :=
  List.replicate (w - l.length) c ++ l

/-- Concatenation of a list of character lists (output accumulation). -/
def concat_all : List (List Char) → List Char
  | [] => []
  | x :: xs => x ++ concat_all xs

/-- Effectful map over a list in the `Except` monad, returning the list of
results or the first error.  Used to state the two-pass table theorems. -/
def mapE {ε α β : Type} (f : α → Except ε β) : List α → Except ε (List β)
  | [] => Except.ok []
  | x :: xs =>
    match f x with
    | Except.error e => Except.error e
    | Except.ok b =>
      match mapE f xs with
      | Except.error e => Except.error e
      | Except.ok bs => Except.ok (b :: bs)

/-- Specification level: TOML version extensions (spec.hpp is a collaborator;
the serializer reads exactly these boolean toggles). -/
structure spec where
  ext_null_value : Bool := false
  ext_num_suffix : Bool := false
  ext_hex_float : Bool := false
  v1_1_0_add_escape_sequence_e : Bool := false
  v1_1_0_add_escape_sequence_x : Bool := false
  deriving DecidableEq

/-- The default specification (TOML 1.0, all extensions disabled). -/
def default_spec : spec := {}

/-- Error kinds raised by the serializer (section 7 of the spec maps each
`throw serialization_error(...)` site of the source to a kind).
`type_error` models the exception thrown by a checked typed accessor of
`basic_value` (e.g. `as_table_fmt()` on a non-table value); `out_of_fuel`
is the artificial fuel-exhaustion marker of the embedding; and
`ghost_inline_mismatch` is verification instrumentation (see
`serialize_value`), proven unreachable by the inline-flag invariant
theorem. -/
inductive serr where
  | invalid_value
  | negative_non_decimal
  | invalid_literal_string
  | missing_key
  | implicit_table_child
  | type_error
  | out_of_fuel
  | ghost_inline_mismatch
  deriving DecidableEq

/-- integer_format of fmt.hpp: radix of an integer value. -/
inductive integer_format where
  | dec
  | hex
  | oct
  | bin
  deriving DecidableEq

/-- integer_format_info: formatting hint of an integer value. -/
structure integer_format_info where
  fmt : integer_format := integer_format.dec
  width : Nat := 0
  spacer : Nat := 0
  uppercase : Bool := false
  suffix : String := ""
  deriving DecidableEq

/-- floating_format of fmt.hpp. -/
inductive floating_format where
  | defaultfloat
  | fixed
  | scientific
  | hex
  deriving DecidableEq

/-- floating_format_info: formatting hint of a floating value. -/
structure floating_format_info where
  fmt : floating_format := floating_format.defaultfloat
  prec : Nat := 0
  suffix : String := ""
  deriving DecidableEq

/-- string_format of fmt.hpp. -/
inductive string_format where
  | basic
  | literal
  | multiline_basic
  | multiline_literal
  deriving DecidableEq

/-- string_format_info: formatting hint of a string value. -/
structure string_format_info where
  fmt : string_format := string_format.basic
  start_with_newline : Bool := false
  deriving DecidableEq

/-- indent_char of fmt.hpp. -/
inductive indent_char where
  | space
  | tab
  | none
  deriving DecidableEq

/-- array_format of fmt.hpp. -/
inductive array_format where
  | default_format
  | oneline
  | multiline
  | array_of_tables
  deriving DecidableEq

/-- array_format_info: formatting hint of an array value. -/
structure array_format_info where
  fmt : array_format := array_format.default_format
  body_indent : Int := 4
  closing_indent : Int := 0
  indent_type : indent_char := indent_char.space
  deriving DecidableEq

/-- table_format of fmt.hpp. -/
inductive table_format where
  | multiline
  | oneline
  | multiline_oneline
  | dotted
  | implicit
  deriving DecidableEq

/-- table_format_info: formatting hint of a table value. -/
structure table_format_info where
  fmt : table_format := table_format.multiline
  name_indent : Int := 0
  body_indent : Int := 0
  closing_indent : Int := 0
  indent_type : indent_char := indent_char.space
  deriving DecidableEq

/-- datetime_delimiter_kind of fmt.hpp. -/
inductive datetime_delimiter_kind where
  | upper_T
  | lower_t
  | space
  deriving DecidableEq

/-- boolean_format_info: no fields of consequence. -/
structure boolean_format_info where
  deriving DecidableEq

/-- local_date_format_info: no fields of consequence. -/
structure local_date_format_info where
  deriving DecidableEq

/-- local_time_format_info. -/
structure local_time_format_info where
  has_seconds : Bool := true
  subsecond_precision : Nat := 0
  deriving DecidableEq

/-- local_datetime_format_info. -/
structure local_datetime_format_info where
  delimiter : datetime_delimiter_kind := datetime_delimiter_kind.upper_T
  has_seconds : Bool := true
  subsecond_precision : Nat := 0
  deriving DecidableEq

/-- offset_datetime_format_info. -/
structure offset_datetime_format_info where
  delimiter : datetime_delimiter_kind := datetime_delimiter_kind.upper_T
  has_seconds : Bool := true
  subsecond_precision : Nat := 0
  deriving DecidableEq

/-- Abstraction of a C++ `double` as the serializer observes it: the IEEE
classification predicates and, for finite values, the strings produced by
the locale-neutral `std::ostringstream` insertions used by the source
(default / fixed / scientific with a given precision, hexfloat, and
scientific with maximum precision).  The formatter itself lives in the
standard library, outside this repository, so it is abstracted as data. -/
structure float_repr where
  is_nan : Bool
  is_inf : Bool
  sign_bit : Bool
  render_default : Nat → List Char
  render_fixed : Nat → List Char
  render_scientific : Nat → List Char
  render_hex : List Char
  render_sci_max : List Char

/-- local_date payload. -/
structure local_date where
  year : Nat
  month : Nat
  day : Nat
  deriving DecidableEq

/-- local_time payload. -/
structure local_time where
  hour : Nat
  minute : Nat
  second : Nat
  millisecond : Nat
  microsecond : Nat
  nanosecond : Nat
  deriving DecidableEq

/-- Modelled from the spec: the numeric time offset of an offset datetime,
rendered as `Z` or `±HH:MM` (the `operator<<` for `time_offset` lives in a
collaborator header that is not part of src/). -/
structure time_offset where
  is_z : Bool
  hour : Int
  minute : Int
  deriving DecidableEq

/-- local_datetime payload. -/
structure local_datetime where
  date : local_date
  time : local_time
  deriving DecidableEq

/-- offset_datetime payload. -/
structure offset_datetime where
  date : local_date
  time : local_time
  offset : time_offset
  deriving DecidableEq

/-- A TOML value: tagged payload, kind-specific formatting hint and the
attached comment container.  The comment container is embedded in its
`preserve_comments` instantiation (an ordered list of comment lines); the
`discard_comments` instantiation renders and tests exactly like the empty
list.  Source locations are dropped: the embedding identifies an error by
its kind, not by its message. -/
inductive Value where
  | boolean (b : Bool) (fmt : boolean_format_info) (com : List String)
  | integer (i : Int) (fmt : integer_format_info) (com : List String)
  | floating (f : float_repr) (fmt : floating_format_info) (com : List String)
  | string (s : List Char) (fmt : string_format_info) (com : List String)
  | offset_datetime (v : offset_datetime) (fmt : offset_datetime_format_info) (com : List String)
  | local_datetime (v : local_datetime) (fmt : local_datetime_format_info) (com : List String)
  | local_date (v : local_date) (fmt : local_date_format_info) (com : List String)
  | local_time (v : local_time) (fmt : local_time_format_info) (com : List String)
  | array (a : List Value) (fmt : array_format_info) (com : List String)
  | table (t : List (String × Value)) (fmt : table_format_info) (com : List String)
  | empty (com : List String)

/-- Comment container accessor (`v.comments()`). -/
def Value.comments : Value → List String
  | .boolean _ _ c => c
  | .integer _ _ c => c
  | .floating _ _ c => c
  | .string _ _ c => c
  | .offset_datetime _ _ c => c
  | .local_datetime _ _ c => c
  | .local_date _ _ c => c
  | .local_time _ _ c => c
  | .array _ _ c => c
  | .table _ _ c => c
  | .empty c => c

/-- Kind test `v.is_table()`. -/
def Value.is_table : Value → Bool
  | .table _ _ _ => true
  | _ => false

/-- Kind test `v.is_array()`. -/
def Value.is_array : Value → Bool
  | .array _ _ _ => true
  | _ => false

/-- Kind test `v.is_boolean()`. -/
def Value.is_boolean : Value → Bool
  | .boolean _ _ _ => true
  | _ => false

/-- Kind test `v.is_offset_datetime()`. -/
def Value.is_offset_datetime : Value → Bool
  | .offset_datetime _ _ _ => true
  | _ => false

/-- Kind test `v.is_local_datetime()`. -/
def Value.is_local_datetime : Value → Bool
  | .local_datetime _ _ _ => true
  | _ => false

/-- Modelled from the spec: `basic_value::is_array_of_tables()` (value.hpp is
not part of src/) — the value is an array, it is non-empty, and every
element is a table. -/
def Value.is_array_of_tables : Value → Bool
  | .array a _ _ => !a.isEmpty && a.all Value.is_table
  | _ => false

/-- Modelled from the spec: the checked typed accessor
`basic_value::as_table_fmt()` returns the table-format hint when the value
is a table; on any other kind it throws a type error (spec section 3
requires a value's tag to match the kind of its hint, and section 6 calls
the accessors "typed").  The `Option` result lets call sites translate the
throwing behaviour explicitly. -/
def Value.as_table_fmt? : Value → Option table_format_info
  | .table _ fmt _ => some fmt
  | _ => Option.none

/-- Array-format accessor restricted to arrays (always used on arrays). -/
def Value.as_array_fmt? : Value → Option array_format_info
  | .array _ fmt _ => some fmt
  | _ => Option.none

/- ------------------------------------------------------------------
   Scalar encoders
   ------------------------------------------------------------------ -/

/-- Boolean encoder (serializer.hpp operator()(boolean_type, ...)). -/
def serialize_boolean (b : Bool) (_fmt : boolean_format_info) : List Char :=
  if b then "true".toList else "false".toList

/-- One digit character in a radix up to 16, lowercase or uppercase
(the digits `std::ostream` produces in hex/oct/dec modes). -/
def digit_char (upper : Bool) (d : Nat) : Char :=
  if d < 10 then Char.ofNat (48 + d)
  else Char.ofNat ((if upper then 55 else 87) + d)

/-- Digits of `n` in base `base`, least significant first; `fuel` bounds the
iteration (any fuel above the digit count gives the full expansion). -/
def nb_aux (base : Nat) (upper : Bool) : Nat → Nat → List Char
  | 0, _ => []
  | fuel + 1, n =>
    if n = 0 then []
    else digit_char upper (n % base) :: nb_aux base upper fuel (n / base)

/-- Most-significant-first digit string of `n` in base `base`, as printed by
`std::ostream` (a single `0` for zero). -/
def nat_base_chars (base : Nat) (upper : Bool) (n : Nat) : List Char :=
  if n = 0 then ['0'] else (nb_aux base upper (n + 1) n).reverse

/-- Modelled from the std iostream behaviour the source relies on: decimal
rendering of a signed integer — a leading minus for negatives, then the
decimal digits of the magnitude; no plus sign is produced. -/
def int_dec_chars (i : Int) : List Char :=
  (if i < 0 then ['-'] else []) ++ nat_base_chars 10 false i.natAbs

/-- The separator-insertion pass of `insert_spacer` (serializer.hpp:154-164):
walk the character list (already reversed, i.e. least significant first),
emitting `_` before every character whose running counter is a non-zero
multiple of the spacer. -/
def spacer_aux (spacer : Nat) : Nat → List Char → List Char
  | _, [] => []
  | counter, c :: rest =>
    (if counter ≠ 0 ∧ counter % spacer = 0 then ['_'] else []) ++
      c :: spacer_aux spacer (counter + 1) rest

/-- The sign-free middle of `insert_spacer` (serializer.hpp:153-168): walk
the digits from the right inserting separators, drop a trailing `_` if one
was produced (dead in practice: the last appended character is always a
digit), and reverse back. -/
def spacer_core (spacer : Nat) (body : List Char) : List Char :=
  (if (spacer_aux spacer 0 body.reverse).getLast? = some '_'
   then (spacer_aux spacer 0 body.reverse).dropLast
   else spacer_aux spacer 0 body.reverse).reverse

/-- `insert_spacer` (serializer.hpp:144-170): no-op for spacer 0; otherwise
split off a leading sign, insert `_` every `spacer` digits counted from the
right, and reattach the sign. -/
def insert_spacer (spacer : Nat) : List Char → List Char
  | [] => []
  | c :: rest =>
    if spacer = 0 then c :: rest
    else if c = '+' ∨ c = '-' then c :: spacer_core spacer rest
    else spacer_core spacer (c :: rest)

/-- The manual bit loop of the binary branch (serializer.hpp:218-230): emit
bits of `x` least significant first, inserting `_` at spacer-bit
boundaries; returns the characters and the number of bits emitted. -/
def bin_core (spacer : Nat) : Nat → Nat → Nat → List Char × Nat
  | 0, _, bits => ([], bits)
  | fuel + 1, x, bits =>
    if x = 0 then ([], bits)
    else
      let r := bin_core spacer fuel (x / 2) (bits + 1)
      ((if spacer ≠ 0 ∧ bits ≠ 0 ∧ bits % spacer = 0 then ['_'] else []) ++
        (if x % 2 = 1 then '1' else '0') :: r.1, r.2)

/-- The width-extension loop of the binary branch (serializer.hpp:231-238):
append `gas` zero bits, continuing the spacer pattern from `bits`. -/
def bin_pad (spacer : Nat) : Nat → Nat → List Char
  | 0, _ => []
  | gas + 1, bits =>
    (if spacer ≠ 0 ∧ bits ≠ 0 ∧ bits % spacer = 0 then ['_'] else []) ++
      '0' :: bin_pad spacer gas (bits + 1)

/-- Binary digit string with grouping and width extension, most significant
first (the reversed `tmp` of serializer.hpp:239-243). -/
def bin_chars (fmt : integer_format_info) (n : Nat) : List Char :=
  let core := bin_core fmt.spacer (n + 1) n 0
  (core.1 ++ bin_pad fmt.spacer (fmt.width - core.2) core.2).reverse

/-- Integer encoder (serializer.hpp operator()(integer_type, ...), lines
139-253).  Decimal: space-filled field of the configured width (setw with
the default fill), spacer insertion, then the optional numeric suffix.
Hex/oct/bin: negative values raise `negative_non_decimal`; otherwise the
zero-filled magnitude in the requested radix behind a `0x`/`0o`/`0b`
marker; hex honours the uppercase flag; bin is computed by the manual bit
loop and not passed through `insert_spacer`. -/
def serialize_integer (i : Int) (fmt : integer_format_info) (sp : spec) :
    Except serr (List Char) :=
  match fmt.fmt with
  | integer_format.dec =>
    let s := pad_left ' ' fmt.width (int_dec_chars i)
    let r := insert_spacer fmt.spacer s
    let r := if sp.ext_num_suffix ∧ fmt.suffix ≠ "" then
        r ++ '_' :: fmt.suffix.toList else r
    Except.ok r
  | integer_format.hex =>
    if i < 0 then Except.error serr.negative_non_decimal
    else Except.ok ('0' :: 'x' ::
      insert_spacer fmt.spacer
        (pad_left '0' fmt.width (nat_base_chars 16 fmt.uppercase i.natAbs)))
  | integer_format.oct =>
    if i < 0 then Except.error serr.negative_non_decimal
    else Except.ok ('0' :: 'o' ::
      insert_spacer fmt.spacer
        (pad_left '0' fmt.width (nat_base_chars 8 false i.natAbs)))
  | integer_format.bin =>
    if i < 0 then Except.error serr.negative_non_decimal
    else Except.ok ('0' :: 'b' :: bin_chars fmt i.natAbs)

/-- Floating encoder (serializer.hpp operator()(floating_type, ...), lines
255-369).  NaN and infinity short-circuit before the form switch, with the
sign bit and the optional numeric suffix; the default form appends `.0`
when the formatted string has neither a point nor an exponent marker; the
hex form ignores the suffix and falls back to maximum-precision scientific
when the hex-float extension is off. -/
def serialize_floating (f : float_repr) (fmt : floating_format_info)
    (sp : spec) : List Char :=
  let sfx : List Char :=
    if sp.ext_num_suffix ∧ fmt.suffix ≠ "" then '_' :: fmt.suffix.toList else []
  if f.is_nan then
    (if f.sign_bit then ['-'] else []) ++ "nan".toList ++ sfx
  else if f.is_inf then
    (if f.sign_bit then ['-'] else []) ++ "inf".toList ++ sfx
  else
    match fmt.fmt with
    | floating_format.defaultfloat =>
      let s := f.render_default fmt.prec
      let s := if '.' ∈ s ∨ 'e' ∈ s ∨ 'E' ∈ s then s else s ++ ['.', '0']
      s ++ sfx
    | floating_format.fixed => f.render_fixed fmt.prec ++ sfx
    | floating_format.scientific => f.render_scientific fmt.prec ++ sfx
    | floating_format.hex =>
      if sp.ext_hex_float then f.render_hex else f.render_sci_max

/- ------------------------------------------------------------------
   String encoders
   ------------------------------------------------------------------ -/

/-- The two-hex-digit tail that the source writes after the escape marker
of a control byte (serializer.hpp:767-777): `c / 16` and `c % 16`,
uppercase letters for digits above 9. -/
def ctrl_hex_pair (n : Nat) : List Char :=
  let c1 := n / 16
  let c2 := n % 16
  [Char.ofNat (48 + c1),
   if c2 < 10 then Char.ofNat (48 + c2) else Char.ofNat (65 + (c2 - 10))]

/-- Control-byte test of the escape loops: 0x00-0x08, 0x0A-0x1F or 0x7F. -/
def is_ctrl_char (c : Char) : Bool :=
  c.toNat ≤ 8 ∨ (10 ≤ c.toNat ∧ c.toNat ≤ 31) ∨ c.toNat = 127

/-- Per-character escaping of `escape_basic_string`
(serializer.hpp:737-787). -/
def escape_basic_char (sp : spec) (c : Char) : List Char :=
  if c = bslashC then [bslashC, bslashC]
  else if c = quoteC then [bslashC, quoteC]
  else if c = Char.ofNat 8 then [bslashC, 'b']
  else if c = '\t' then [bslashC, 't']
  else if c = Char.ofNat 12 then [bslashC, 'f']
  else if c = '\n' then [bslashC, 'n']
  else if c = '\r' then [bslashC, 'r']
  else if c.toNat = 27 ∧ sp.v1_1_0_add_escape_sequence_e then [bslashC, 'e']
  else if is_ctrl_char c then
    (if sp.v1_1_0_add_escape_sequence_x then [bslashC, 'x']
     else [bslashC, 'u', '0', '0']) ++ ctrl_hex_pair c.toNat
  else [c]

/-- `escape_basic_string` (serializer.hpp:737-787). -/
def escape_basic_string (sp : spec) (s : List Char) : List Char :=
  s.flatMap (escape_basic_char sp)

/-- Per-character escaping of the multi-line basic form
(serializer.hpp:789-836): like the basic form, except that `"` and the
newline pass through unchanged. -/
def escape_ml_char (sp : spec) (c : Char) : List Char :=
  if c = bslashC then [bslashC, bslashC]
  else if c = Char.ofNat 8 then [bslashC, 'b']
  else if c = '\t' then [bslashC, 't']
  else if c = Char.ofNat 12 then [bslashC, 'f']
  else if c = '\n' then ['\n']
  else if c = '\r' then [bslashC, 'r']
  else if c.toNat = 27 ∧ sp.v1_1_0_add_escape_sequence_e then [bslashC, 'e']
  else if is_ctrl_char c then
    (if sp.v1_1_0_add_escape_sequence_x then [bslashC, 'x']
     else [bslashC, 'u', '0', '0']) ++ ctrl_hex_pair c.toNat
  else [c]

/-- Whether the list starts with three consecutive double quotes. -/
def head3q : List Char → Bool
  | c1 :: c2 :: c3 :: _ => c1 = quoteC && c2 = quoteC && c3 = quoteC
  | _ => false

/-- `retval.find("\"\"\"")` (serializer.hpp:848): index of the first
occurrence of three consecutive quotes, if any. -/
def find_3_quotes : List Char → Option Nat
  | [] => Option.none
  | c :: rest =>
    if head3q (c :: rest) then some 0
    else (find_3_quotes rest).map (· + 1)

/-- Number of (possibly overlapping) positions where three consecutive
quotes start; the termination measure of the replacement loop. -/
def count_3_quotes : List Char → Nat
  | [] => 0
  | c :: rest => (if head3q (c :: rest) then 1 else 0) + count_3_quotes rest

/-- `retval.replace(p, 3, "\"\"\\\"")` (serializer.hpp:851): rewrite the
three quotes at position `p` into two quotes, a backslash and a quote. -/
def replace_3_quotes (l : List Char) (p : Nat) : List Char :=
  l.take p ++ [quoteC, quoteC, bslashC, quoteC] ++ l.drop (p + 3)

/-- The replacement loop of serializer.hpp:848-853, run with an explicit
iteration bound.  Each iteration strictly decreases `count_3_quotes`
(proved below), so `count_3_quotes l` iterations always reach the
fixpoint; extra fuel is provably a no-op. -/
def break_3_quotes : Nat → List Char → List Char
  | 0, l => l
  | fuel + 1, l =>
    match find_3_quotes l with
    | Option.none => l
    | some p => break_3_quotes fuel (replace_3_quotes l p)

/-- `escape_ml_basic_string` (serializer.hpp:789-855): escape each character
for the multi-line basic form, then repeatedly break every run of three
consecutive quotes by escaping the third. -/
def escape_ml_basic_string (sp : spec) (s : List Char) : List Char :=
  let escaped := s.flatMap (escape_ml_char sp)
  break_3_quotes (count_3_quotes escaped) escaped

/-- String encoder (serializer.hpp operator()(string_type, ...), lines
371-427). -/
def serialize_string (s : List Char) (fmt : string_format_info) (sp : spec) :
    Except serr (List Char) :=
  match fmt.fmt with
  | string_format.basic =>
    Except.ok (quoteC :: escape_basic_string sp s ++ [quoteC])
  | string_format.literal =>
    if '\n' ∈ s then Except.error serr.invalid_literal_string
    else Except.ok (squoteC :: s ++ [squoteC])
  | string_format.multiline_basic =>
    Except.ok ([quoteC, quoteC, quoteC] ++
      (if fmt.start_with_newline then ['\n'] else []) ++
      escape_ml_basic_string sp s ++ [quoteC, quoteC, quoteC])
  | string_format.multiline_literal =>
    Except.ok ([squoteC, squoteC, squoteC] ++
      (if fmt.start_with_newline then ['\n'] else []) ++
      s ++ [squoteC, squoteC, squoteC])

/- ------------------------------------------------------------------
   Date/time encoders
   ------------------------------------------------------------------ -/

/-- Zero-padded fixed-width decimal (`setw(n)` with fill `0`). -/
def pad_num (w : Nat) (n : Nat) : List Char :=
  pad_left '0' w (nat_base_chars 10 false n)

/-- `format_local_time` (serializer.hpp:857-878). -/
def format_local_time (t : local_time) (has_seconds : Bool)
    (subsec_prec : Nat) : List Char :=
  pad_num 2 t.hour ++ ':' :: pad_num 2 t.minute ++
    (if has_seconds then
      ':' :: pad_num 2 t.second ++
        (if subsec_prec ≠ 0 then
          '.' :: (pad_num 3 t.millisecond ++ pad_num 3 t.microsecond ++
            pad_num 3 t.nanosecond).take subsec_prec
        else [])
    else [])

/-- Modelled from the spec: `operator<<` for a local date — `YYYY-MM-DD`
(datetime.hpp is not part of src/). -/
def serialize_local_date (d : local_date) : List Char :=
  pad_num 4 d.year ++ '-' :: pad_num 2 d.month ++ '-' :: pad_num 2 d.day

/-- Modelled from the spec: `operator<<` for a time offset — `Z` or
`±HH:MM`. -/
def serialize_time_offset (o : time_offset) : List Char :=
  if o.is_z then ['Z']
  else (if o.hour < 0 ∨ o.minute < 0 then ['-'] else ['+']) ++
    pad_num 2 o.hour.natAbs ++ ':' :: pad_num 2 o.minute.natAbs

/-- Datetime delimiter character (serializer.hpp:445-451). -/
def delim_char (d : datetime_delimiter_kind) : Char :=
  match d with
  | datetime_delimiter_kind.upper_T => 'T'
  | datetime_delimiter_kind.lower_t => 't'
  | datetime_delimiter_kind.space => ' '

/-- Local datetime encoder (serializer.hpp:441-454). -/
def serialize_local_datetime (v : local_datetime)
    (fmt : local_datetime_format_info) : List Char :=
  serialize_local_date v.date ++ delim_char fmt.delimiter ::
    format_local_time v.time fmt.has_seconds fmt.subsecond_precision

/-- Offset datetime encoder (serializer.hpp:456-470). -/
def serialize_offset_datetime (v : offset_datetime)
    (fmt : offset_datetime_format_info) : List Char :=
  serialize_local_date v.date ++ delim_char fmt.delimiter ::
    format_local_time v.time fmt.has_seconds fmt.subsecond_precision ++
    serialize_time_offset v.offset

/- ------------------------------------------------------------------
   Key encoder, comment renderer, indent helper
   ------------------------------------------------------------------ -/

/-- Modelled from the spec: the unquoted-key grammar of syntax.hpp (a
collaborator header not in src/) — a bare key is a non-empty run of ASCII
letters, digits, `-` and `_` (the TOML 1.0 grammar; the 1.1 additions are
not modelled because no claim depends on them). -/
def bare_key_ok (k : String) : Bool :=
  !k.toList.isEmpty && k.toList.all (fun c =>
    ('a' ≤ c ∧ c ≤ 'z') ∨ ('A' ≤ c ∧ c ≤ 'Z') ∨
    ('0' ≤ c ∧ c ≤ '9') ∨ c = '-' ∨ c = '_')

/-- Per-character escaping of a quoted key (serializer.hpp:1067-1110); like
the basic-string escapes but without the `\e` extension case. -/
def escape_key_char (sp : spec) (c : Char) : List Char :=
  if c = bslashC then [bslashC, bslashC]
  else if c = quoteC then [bslashC, quoteC]
  else if c = Char.ofNat 8 then [bslashC, 'b']
  else if c = '\t' then [bslashC, 't']
  else if c = Char.ofNat 12 then [bslashC, 'f']
  else if c = '\n' then [bslashC, 'n']
  else if c = '\r' then [bslashC, 'r']
  else if is_ctrl_char c then
    (if sp.v1_1_0_add_escape_sequence_x then [bslashC, 'x']
     else [bslashC, 'u', '0', '0']) ++ ctrl_hex_pair c.toNat
  else [c]

/-- `format_key` (serializer.hpp:1050-1113): empty key renders as a pair of
quotes; a key matching the unquoted-key grammar renders raw; anything else
renders quoted with basic-string escapes. -/
def format_key (sp : spec) (k : String) : List Char :=
  if k = "" then [quoteC, quoteC]
  else if bare_key_ok k then k.toList
  else quoteC :: k.toList.flatMap (escape_key_char sp) ++ [quoteC]

/-- `format_keys` (serializer.hpp:1114-1129): `none` for the empty
sequence, otherwise the encoded keys joined with dots (each key followed
by a dot, with the final dot removed). -/
def format_keys (sp : spec) (keys : List String) : Option (List Char) :=
  if keys.isEmpty then Option.none
  else some (keys.flatMap (fun k => format_key sp k ++ ['.'])).dropLast

/-- `format_indent` (serializer.hpp:1149-1164): the current indent counter
floored at zero, as spaces, tabs or nothing. -/
def format_indent (indent_type : indent_char) (cur : Int) : List Char :=
  match indent_type with
  | indent_char.space => List.replicate (max 0 cur).toNat ' '
  | indent_char.tab => List.replicate (max 0 cur).toNat '\t'
  | indent_char.none => []

/-- `format_comments` for the preserving container
(serializer.hpp:1135-1147): per non-empty entry, the active indent, a `#`
prepended when missing, the entry, and a final newline when missing.  The
discarding container is the `com = []` special case. -/
def format_comments (com : List String) (indent_type : indent_char)
    (cur : Int) : List Char :=
  com.flatMap (fun c =>
    match c.toList with
    | [] => []
    | h :: rest =>
      format_indent indent_type cur ++
        (if h ≠ '#' then ['#'] else []) ++ (h :: rest) ++
        (if (h :: rest).getLastD ' ' ≠ '\n' then ['\n'] else []))

/- ------------------------------------------------------------------
   The recursive driver
   ------------------------------------------------------------------ -/

/-- The mutable context of the C++ `serializer` object: the key-path stack
`keys_`, the inline-forced flag `force_inline_` and the indent counter
`current_indent_` (the spec pointer `spec_` is passed separately as a
plain parameter since it never changes). -/
structure SState where
  keys : List String
  force_inline : Bool
  current_indent : Int
  deriving DecidableEq

/-- Result of one serializer routine: the emitted characters together with
the updated context, or an error. -/
abbrev SRes := Except serr (List Char × SState)

/-- Type of the recursion callback standing for a recursive call into the
dispatch driver `operator()(const value_type&)`: the first argument is the
ghost inline-context flag (see `serialize_value`). -/
abbrev Recur := Bool → SState → Value → SRes

/-- The element-length estimation loop of the array-format resolution
(serializer.hpp:493-545): walk the elements accumulating an approximate
one-line length, switching to the multiline form on a comment, a nested
container or datetime, a multi-line string, or when the length passes 60;
otherwise the form stays oneline. -/
def est_loop (sp : spec) : Nat → List Value → Except serr array_format
  | _, [] => Except.ok array_format.oneline
  | len, e :: rest =>
    if !e.comments.isEmpty then Except.ok array_format.multiline
    else if e.is_array || e.is_table || e.is_offset_datetime ||
        e.is_local_datetime then Except.ok array_format.multiline
    else
      match e with
      | .boolean b bf _ =>
        let len := len + (serialize_boolean b bf).length
        if len > 60 then Except.ok array_format.multiline
        else est_loop sp (len + 2) rest
      | .integer i f _ =>
        match serialize_integer i f sp with
        | Except.error err => Except.error err
        | Except.ok s =>
          let len := len + s.length
          if len > 60 then Except.ok array_format.multiline
          else est_loop sp (len + 2) rest
      | .floating fv ff _ =>
        let len := len + (serialize_floating fv ff sp).length
        if len > 60 then Except.ok array_format.multiline
        else est_loop sp (len + 2) rest
      | .string s sf _ =>
        if sf.fmt = string_format.multiline_basic ∨
            sf.fmt = string_format.multiline_literal then
          Except.ok array_format.multiline
        else
          match serialize_string s sf sp with
          | Except.error err => Except.error err
          | Except.ok r =>
            let len := len + (2 + r.length)
            if len > 60 then Except.ok array_format.multiline
            else est_loop sp (len + 2) rest
      | .local_date _ _ _ =>
        let len := len + 10
        if len > 60 then Except.ok array_format.multiline
        else est_loop sp (len + 2) rest
      | .local_time _ _ _ =>
        let len := len + 15
        if len > 60 then Except.ok array_format.multiline
        else est_loop sp (len + 2) rest
      | .offset_datetime _ _ _ =>
        if len > 60 then Except.ok array_format.multiline
        else est_loop sp (len + 2) rest
      | .local_datetime _ _ _ =>
        if len > 60 then Except.ok array_format.multiline
        else est_loop sp (len + 2) rest
      | .array _ _ _ =>
        if len > 60 then Except.ok array_format.multiline
        else est_loop sp (len + 2) rest
      | .table _ _ _ =>
        if len > 60 then Except.ok array_format.multiline
        else est_loop sp (len + 2) rest
      | .empty _ =>
        if len > 60 then Except.ok array_format.multiline
        else est_loop sp (len + 2) rest

/-- Resolution of the `default_format` array form
(serializer.hpp:474-547): with a non-empty key path, a non-empty array, an
empty comment container and all-table elements the form becomes
array-of-tables; otherwise the estimation loop decides between oneline
and multiline.  A non-default hint is kept as-is. -/
def resolve_array_format (sp : spec) (keys_empty : Bool) (a : List Value)
    (fmt : array_format_info) (com : List String) :
    Except serr array_format :=
  if fmt.fmt = array_format.default_format then
    if !keys_empty ∧ !a.isEmpty ∧ com.isEmpty ∧ a.all Value.is_table then
      Except.ok array_format.array_of_tables
    else est_loop sp 0 a
  else Except.ok fmt.fmt

/-- The inline-context override (serializer.hpp:549-552): inside an
inline-forced context an array-of-tables form is downgraded to
multiline. -/
def effective_array_format (force : Bool) (f : array_format) : array_format :=
  if force ∧ f = array_format.array_of_tables then array_format.multiline
  else f

/-- The oneline-array emission loop (serializer.hpp:584-589): set the
inline-forced flag, render the element, append a comma-space. -/
def arr_oneline_loop (recur : Recur) : SState → List Value → SRes
  | st, [] => Except.ok ([], st)
  | st, e :: rest =>
    match recur true { st with force_inline := true } e with
    | Except.error err => Except.error err
    | Except.ok (s, st1) =>
      match arr_oneline_loop recur st1 rest with
      | Except.error err => Except.error err
      | Except.ok (s2, st2) => Except.ok (s ++ (", ").toList ++ s2, st2)

/-- The multiline-array emission loop (serializer.hpp:606-616): per
element, comments and indent at the body indent, the element rendered
inline-forced, and a comma-newline. -/
def arr_ml_loop (recur : Recur) (fmt : array_format_info) :
    SState → List Value → SRes
  | st, [] => Except.ok ([], st)
  | st, e :: rest =>
    let cs := format_comments e.comments fmt.indent_type
        (st.current_indent + fmt.body_indent) ++
      format_indent fmt.indent_type (st.current_indent + fmt.body_indent)
    match recur true { st with force_inline := true } e with
    | Except.error err => Except.error err
    | Except.ok (s, st1) =>
      match arr_ml_loop recur fmt st1 rest with
      | Except.error err => Except.error err
      | Except.ok (s2, st2) => Except.ok (cs ++ s ++ (",\n").toList ++ s2, st2)

/-- The inline (oneline) table loop (serializer.hpp:949-956): per entry,
set the inline-forced flag, emit the encoded key, ` = `, the value, and a
comma-space.  The key path is not extended. -/
def inline_table_loop (recur : Recur) (sp : spec) :
    SState → List (String × Value) → SRes
  | st, [] => Except.ok ([], st)
  | st, (k, v) :: rest =>
    match recur true { st with force_inline := true } v with
    | Except.error err => Except.error err
    | Except.ok (s, st1) =>
      match inline_table_loop recur sp st1 rest with
      | Except.error err => Except.error err
      | Except.ok (s2, st2) =>
        Except.ok (format_key sp k ++ (" = ").toList ++ s ++ (", ").toList ++ s2, st2)

/-- `format_inline_table` (serializer.hpp:944-965): braces around the
entries, the trailing comma-space removed when the table is non-empty,
comments ignored, and the inline-forced flag cleared at the end. -/
def format_inline_table (recur : Recur) (sp : spec) (st : SState)
    (t : List (String × Value)) (_fmt : table_format_info) : SRes :=
  match inline_table_loop recur sp st t with
  | Except.error err => Except.error err
  | Except.ok (body, st1) =>
    let body := if t.isEmpty then body else body.dropLast.dropLast
    Except.ok (lcurlC :: body ++ [rcurlC], { st1 with force_inline := false })

/-- The multiline-inline table loop (serializer.hpp:972-984): per entry,
set the inline-forced flag, emit the entry's comments and the body indent,
the RAW key (the source writes `kv.first` directly, without the key
encoder), ` = `, the value, and a comma-newline. -/
def ml_inline_table_loop (recur : Recur) (fmt : table_format_info) :
    SState → List (String × Value) → SRes
  | st, [] => Except.ok ([], st)
  | st, (k, v) :: rest =>
    let cs := format_comments v.comments fmt.indent_type st.current_indent ++
      format_indent fmt.indent_type st.current_indent
    match recur true { st with force_inline := true } v with
    | Except.error err => Except.error err
    | Except.ok (s, st1) =>
      match ml_inline_table_loop recur fmt st1 rest with
      | Except.error err => Except.error err
      | Except.ok (s2, st2) =>
        Except.ok (cs ++ k.toList ++ (" = ").toList ++ s ++ (",\n").toList ++ s2, st2)

/-- `format_ml_inline_table` (serializer.hpp:967-999): an opening brace and
newline, the entries at the body indent, the final comma and newline
popped off when the table is non-empty, the inline-forced flag cleared,
then the closing indent and brace. -/
def format_ml_inline_table (recur : Recur) (st : SState)
    (t : List (String × Value)) (fmt : table_format_info) : SRes :=
  match ml_inline_table_loop recur fmt
      { st with current_indent := st.current_indent + fmt.body_indent } t with
  | Except.error err => Except.error err
  | Except.ok (body, st1) =>
    let retval := lcurlC :: '\n' :: body
    let retval := if t.isEmpty then retval else retval.dropLast.dropLast
    let st2 : SState :=
      { st1 with current_indent := st1.current_indent - fmt.body_indent,
                 force_inline := false }
    Except.ok (retval ++
      format_indent fmt.indent_type (st2.current_indent + fmt.closing_indent) ++
      [rcurlC], st2)

/-- `format_dotted_table` (serializer.hpp:1001-1048): walk the entries
extending the local dotted key list; a sub-table whose form is neither
oneline nor multiline-oneline is flattened recursively; any other value is
a leaf emitted as comments, indent, the joined dotted keys, ` = `, then
the value rendered inline-forced, a newline, and the flag cleared.  `fuel`
bounds the nesting depth of the flattening. -/
def format_dotted_table (recur : Recur) (sp : spec) :
    Nat → SState → List (String × Value) → table_format_info →
      List String → SRes
  | 0, _, _, _, _ => Except.error serr.out_of_fuel
  | _ + 1, st, [], _, _ => Except.ok ([], st)
  | fuel + 1, st, (k, v) :: rest, fmt, dkeys =>
    let dk := dkeys ++ [k]
    let step : SRes :=
      match v with
      | .table vt vtf _ =>
        if vtf.fmt ≠ table_format.oneline ∧
            vtf.fmt ≠ table_format.multiline_oneline then
          format_dotted_table recur sp fuel st vt vtf dk
        else
          match recur true { st with force_inline := true } v with
          | Except.error err => Except.error err
          | Except.ok (s, st1) =>
            Except.ok (format_comments v.comments fmt.indent_type st.current_indent ++
              format_indent fmt.indent_type st.current_indent ++
              (format_keys sp dk).getD [] ++ (" = ").toList ++ s ++ ['\n'],
              { st1 with force_inline := false })
      | _ =>
        match recur true { st with force_inline := true } v with
        | Except.error err => Except.error err
        | Except.ok (s, st1) =>
          Except.ok (format_comments v.comments fmt.indent_type st.current_indent ++
            format_indent fmt.indent_type st.current_indent ++
            (format_keys sp dk).getD [] ++ (" = ").toList ++ s ++ ['\n'],
            { st1 with force_inline := false })
    match step with
    | Except.error err => Except.error err
    | Except.ok (s, st1) =>
      match format_dotted_table recur sp fuel st1 rest fmt dkeys with
      | Except.error err => Except.error err
      | Except.ok (s2, st2) => Except.ok (s ++ s2, st2)

/-- The `format_later` classifier of `format_ml_table`
(serializer.hpp:882-894): a value postponed to the second pass is either a
table whose form is none of oneline, multiline-oneline or dotted, or an
array-of-tables whose array form is neither oneline nor multiline. -/
def format_later (v : Value) : Bool :=
  let is_ml_table :=
    match v with
    | .table _ tf _ =>
      tf.fmt ≠ table_format.oneline ∧
      tf.fmt ≠ table_format.multiline_oneline ∧
      tf.fmt ≠ table_format.dotted
    | _ => false
  let is_ml_array_table :=
    v.is_array_of_tables &&
      (match v with
       | .array _ af _ =>
         af.fmt ≠ array_format.oneline ∧ af.fmt ≠ array_format.multiline
       | _ => false)
  is_ml_table || is_ml_array_table

/-- Whether a value is a dotted-form table (the special case of the first
pass of `format_ml_table`, serializer.hpp:910). -/
def is_dotted_table (v : Value) : Bool :=
  match v with
  | .table _ tf _ => tf.fmt = table_format.dotted
  | _ => false

/-- First pass of `format_ml_table` (serializer.hpp:898-922): entries that
are not postponed are emitted, in container order, as comments, indent,
then either the dotted flattening (for a dotted table, recursing through
the driver with the key pushed) or `key = value` and a newline.  The state
passed in already carries the body indent. -/
def ml_table_pass1 (recur : Recur) (ctx : Bool) (sp : spec)
    (fmt : table_format_info) : SState → List (String × Value) → SRes
  | st, [] => Except.ok ([], st)
  | st, (k, v) :: rest =>
    if format_later v then ml_table_pass1 recur ctx sp fmt st rest
    else
      let cs := format_comments v.comments fmt.indent_type st.current_indent ++
        format_indent fmt.indent_type st.current_indent
      match recur ctx { st with keys := st.keys ++ [k] } v with
      | Except.error err => Except.error err
      | Except.ok (s, st1) =>
        let entry :=
          if is_dotted_table v then cs ++ s
          else cs ++ format_key sp k ++ (" = ").toList ++ s ++ ['\n']
        match ml_table_pass1 recur ctx sp fmt
            { st1 with keys := st1.keys.dropLast } rest with
        | Except.error err => Except.error err
        | Except.ok (s2, st2) => Except.ok (entry ++ s2, st2)

/-- Second pass of `format_ml_table` (serializer.hpp:929-940): postponed
entries are emitted, in container order, by recursing through the driver
with the key path extended. -/
def ml_table_pass2 (recur : Recur) (ctx : Bool) :
    SState → List (String × Value) → SRes
  | st, [] => Except.ok ([], st)
  | st, (k, v) :: rest =>
    if !format_later v then ml_table_pass2 recur ctx st rest
    else
      match recur ctx { st with keys := st.keys ++ [k] } v with
      | Except.error err => Except.error err
      | Except.ok (s, st1) =>
        match ml_table_pass2 recur ctx { st1 with keys := st1.keys.dropLast } rest with
        | Except.error err => Except.error err
        | Except.ok (s2, st2) => Except.ok (s ++ s2, st2)

/-- `format_ml_table` (serializer.hpp:880-942): the first pass runs at the
body indent; a lone newline follows whenever the first pass produced
anything; the second pass runs back at the original indent. -/
def format_ml_table (recur : Recur) (ctx : Bool) (sp : spec) (st : SState)
    (t : List (String × Value)) (fmt : table_format_info) : SRes :=
  match ml_table_pass1 recur ctx sp fmt
      { st with current_indent := st.current_indent + fmt.body_indent } t with
  | Except.error err => Except.error err
  | Except.ok (s1, st1) =>
    let st1' : SState := { st1 with current_indent := st1.current_indent - fmt.body_indent }
    let s1' := if s1.isEmpty then s1 else s1 ++ ['\n']
    match ml_table_pass2 recur ctx st1' t with
    | Except.error err => Except.error err
    | Except.ok (s2, st2) => Except.ok (s1' ++ s2, st2)

/-- The array-of-tables emission loop (serializer.hpp:562-576): per element
(which must be a table — the typed accessors throw otherwise), comments
and indent at the element's name indent, the `[[dotted.keys]]` header from
the current key path, then the element's body via `format_ml_table`. -/
def aot_loop (recur : Recur) (ctx : Bool) (sp : spec) :
    SState → List Value → SRes
  | st, [] => Except.ok ([], st)
  | st, e :: rest =>
    match e with
    | .table te tf _ =>
      let cs := format_comments e.comments tf.indent_type
          (st.current_indent + tf.name_indent) ++
        format_indent tf.indent_type (st.current_indent + tf.name_indent)
      let header := ("[[").toList ++ (format_keys sp st.keys).getD [] ++
        ("]]\n").toList
      match format_ml_table recur ctx sp st te tf with
      | Except.error err => Except.error err
      | Except.ok (body, st1) =>
        match aot_loop recur ctx sp st1 rest with
        | Except.error err => Except.error err
        | Except.ok (s2, st2) => Except.ok (cs ++ header ++ body ++ s2, st2)
    | _ => Except.error serr.type_error

/-- The array renderer (serializer.hpp operator()(array_type, ...), lines
472-626): resolve the format, apply the inline-context override, then emit
an array-of-tables block (requiring a non-empty key path), a oneline
array (with the trailing comma-space popped) or a multiline array (with
closing indent), clearing the inline-forced flag at the end of the inline
branches. -/
def serialize_array (recur : Recur) (sp : spec) (ctx : Bool) (st : SState)
    (a : List Value) (fmt : array_format_info) (com : List String) : SRes :=
  match resolve_array_format sp st.keys.isEmpty a fmt com with
  | Except.error err => Except.error err
  | Except.ok f0 =>
    let f := effective_array_format st.force_inline f0
    if f = array_format.array_of_tables then
      if st.keys.isEmpty then Except.error serr.missing_key
      else aot_loop recur ctx sp st a
    else if f = array_format.oneline then
      match arr_oneline_loop recur st a with
      | Except.error err => Except.error err
      | Except.ok (body, st1) =>
        let body := if a.isEmpty then body else body.dropLast.dropLast
        Except.ok ('[' :: body ++ [']'], { st1 with force_inline := false })
    else
      match arr_ml_loop recur fmt st a with
      | Except.error err => Except.error err
      | Except.ok (body, st1) =>
        let st2 : SState := { st1 with force_inline := false }
        Except.ok ('[' :: '\n' :: body ++
          format_indent fmt.indent_type (st2.current_indent + fmt.closing_indent) ++
          [']'], st2)

/-- The per-element validation of an array-of-tables child of an implicit
table (serializer.hpp:714-723), translated with the C++ short-circuit of
`e.as_table_fmt().fmt != multiline && v.as_table_fmt().fmt != implicit`:
the second operand queries the table format OF THE ARRAY `v` itself, so
whenever an element's form differs from multiline the checked accessor
`as_table_fmt()` is reached on a non-table value and throws a type error
(`vfmt` below is `v.as_table_fmt?`, which is `none` for the array). -/
def implicit_aot_check (vfmt : Option table_format_info) :
    List Value → Except serr Unit
  | [] => Except.ok ()
  | e :: rest =>
    match e.as_table_fmt? with
    | Option.none => Except.error serr.type_error
    | some etf =>
      if etf.fmt ≠ table_format.multiline then
        match vfmt with
        | Option.none => Except.error serr.type_error
        | some vtf =>
          if vtf.fmt ≠ table_format.implicit then
            Except.error serr.implicit_table_child
          else implicit_aot_check vfmt rest
      else implicit_aot_check vfmt rest

/-- The implicit-table loop (serializer.hpp:689-729): per child, reject a
value that is neither a table nor an array of tables; reject a table whose
form is neither multiline nor implicit; validate the elements of an array
of tables; then recurse with the key path extended. -/
def implicit_loop (recur : Recur) (ctx : Bool) :
    SState → List (String × Value) → SRes
  | st, [] => Except.ok ([], st)
  | st, (k, v) :: rest =>
    if ¬(v.is_table ∨ v.is_array_of_tables) then
      Except.error serr.implicit_table_child
    else
      let check : Except serr Unit :=
        match v with
        | .table _ vtf _ =>
          if vtf.fmt ≠ table_format.multiline ∧
              vtf.fmt ≠ table_format.implicit then
            Except.error serr.implicit_table_child
          else Except.ok ()
        | .array elems _ _ => implicit_aot_check v.as_table_fmt? elems
        | _ => Except.ok ()
      match check with
      | Except.error err => Except.error err
      | Except.ok _ =>
        match recur ctx { st with keys := st.keys ++ [k] } v with
        | Except.error err => Except.error err
        | Except.ok (s, st1) =>
          match implicit_loop recur ctx { st1 with keys := st1.keys.dropLast } rest with
          | Except.error err => Except.error err
          | Except.ok (s2, st2) => Except.ok (s ++ s2, st2)

/-- The table renderer (serializer.hpp operator()(table_type, ...), lines
628-733).  Inside an inline-forced context the multiline-oneline form gets
the multiline inline formatter and everything else the oneline inline
formatter; otherwise the hint selects the header-block form (with a
`[dotted.keys]` header unless the key path is empty), one of the inline
forms, the dotted form (requiring a non-empty key path, seeded with its
last key) or the implicit form.  `fuel` only feeds the dotted
flattening. -/
def serialize_table (recur : Recur) (sp : spec) (fuel : Nat) (ctx : Bool)
    (st : SState) (t : List (String × Value)) (fmt : table_format_info)
    (com : List String) : SRes :=
  if st.force_inline then
    if fmt.fmt = table_format.multiline_oneline then
      format_ml_inline_table recur st t fmt
    else format_inline_table recur sp st t fmt
  else
    match fmt.fmt with
    | table_format.multiline =>
      let header :=
        match format_keys sp st.keys with
        | some k =>
          format_comments com fmt.indent_type (st.current_indent + fmt.name_indent) ++
            format_indent fmt.indent_type (st.current_indent + fmt.name_indent) ++
            '[' :: k ++ ("]\n").toList
        | Option.none => []
      match format_ml_table recur ctx sp st t fmt with
      | Except.error err => Except.error err
      | Except.ok (body, st1) => Except.ok (header ++ body, st1)
    | table_format.oneline => format_inline_table recur sp st t fmt
    | table_format.multiline_oneline => format_ml_inline_table recur st t fmt
    | table_format.dotted =>
      match st.keys.getLast? with
      | Option.none => Except.error serr.missing_key
      | some k => format_dotted_table recur sp fuel st t fmt [k]
    | table_format.implicit => implicit_loop recur ctx st t

/-- The dispatch driver (serializer.hpp operator()(const value_type&),
lines 83-130), indexed by fuel.  For verification of the inline-flag
invariant the driver carries a ghost flag `ctx` that is true exactly when
the current value is a descendant of an inline-context container (a
oneline array, a multiline array element, an inline table entry or a
dotted-table leaf — the call sites above pass `true` there and propagate
`ctx` elsewhere); at every dispatch the driver checks the serializer's
`force_inline` flag against `ctx` and fails with the distinguished
`ghost_inline_mismatch` error on disagreement.  The invariant theorem
shows this error is unreachable, so on the invariant's domain the driver
behaves exactly as the source.  A root table with an empty key path emits
its comment block first, followed by a blank line when non-empty; the
empty kind renders `null` under the null extension and is otherwise an
invalid value. -/
def serialize_value (sp : spec) : Nat → Bool → SState → Value → SRes
  | 0, _, _, _ => Except.error serr.out_of_fuel
  | fuel + 1, ctx, st, v =>
    if st.force_inline ≠ ctx then Except.error serr.ghost_inline_mismatch
    else
      match v with
      | .boolean b fmt _ => Except.ok (serialize_boolean b fmt, st)
      | .integer i fmt _ =>
        match serialize_integer i fmt sp with
        | Except.error err => Except.error err
        | Except.ok s => Except.ok (s, st)
      | .floating f fmt _ => Except.ok (serialize_floating f fmt sp, st)
      | .string s fmt _ =>
        match serialize_string s fmt sp with
        | Except.error err => Except.error err
        | Except.ok r => Except.ok (r, st)
      | .offset_datetime dv fmt _ =>
        Except.ok (serialize_offset_datetime dv fmt, st)
      | .local_datetime dv fmt _ =>
        Except.ok (serialize_local_datetime dv fmt, st)
      | .local_date dv _ _ => Except.ok (serialize_local_date dv, st)
      | .local_time dv fmt _ =>
        Except.ok (format_local_time dv fmt.has_seconds fmt.subsecond_precision, st)
      | .array a fmt com => serialize_array (serialize_value sp fuel) sp ctx st a fmt com
      | .table t fmt com =>
        let pre :=
          if st.keys.isEmpty then
            format_comments com fmt.indent_type st.current_indent
          else []
        let pre := if !pre.isEmpty then pre ++ ['\n'] else pre
        match serialize_table (serialize_value sp fuel) sp fuel ctx st t fmt com with
        | Except.error err => Except.error err
        | Except.ok (s, st1) => Except.ok (pre ++ s, st1)
      | .empty _ =>
        if sp.ext_null_value then Except.ok (("null").toList, st)
        else Except.error serr.invalid_value

/-- The initial serializer context (serializer.hpp:64-66). -/
def init_state : SState := { keys := [], force_inline := false, current_indent := 0 }

/-- Entry point `format(v, spec)` (serializer.hpp:1181-1186), with the
embedding's fuel made explicit. -/
def toml_format (sp : spec) (fuel : Nat) (v : Value) : Except serr (List Char) :=
  match serialize_value sp fuel false init_state v with
  | Except.error err => Except.error err
  | Except.ok (s, _) => Except.ok s

/-- Entry point `format(keys, v, spec)` (serializer.hpp:1195-1202): the key
path starts with the given keys. -/
def toml_format_keys (sp : spec) (fuel : Nat) (ks : List String) (v : Value) :
    Except serr (List Char) :=
  match serialize_value sp fuel false { init_state with keys := ks } v with
  | Except.error err => Except.error err
  | Except.ok (s, _) => Except.ok s

/- ------------------------------------------------------------------
   Specification-side entry renderers and proof-level predicates
   ------------------------------------------------------------------ -/

/-- Specification-side rendering of one first-pass entry of a multi-line
table body, as a function of the key path and indent only: comments and
indent, then either the dotted flattening or `key = value` and a newline.
Used to state that the first pass renders every kept entry from one and
the same context. -/
def ml_table_leaf_entry (recur : Recur) (ctx : Bool) (sp : spec)
    (fmt : table_format_info) (keys : List String) (ind : Int)
    (kv : String × Value) : Except serr (List Char) :=
  let cs := format_comments kv.2.comments fmt.indent_type ind ++
    format_indent fmt.indent_type ind
  let stE : SState :=
    { keys := keys ++ [kv.1], force_inline := false, current_indent := ind }
  match recur ctx stE kv.2 with
  | Except.error e => Except.error e
  | Except.ok (s, _) =>
    Except.ok (if is_dotted_table kv.2 then cs ++ s
      else cs ++ format_key sp kv.1 ++ (" = ").toList ++ s ++ ['\n'])

/-- Specification-side rendering of one second-pass entry of a multi-line
table body: the value rendered with the key path extended by its key. -/
def ml_table_sub_entry (recur : Recur) (ctx : Bool) (keys : List String)
    (ind : Int) (kv : String × Value) : Except serr (List Char) :=
  let stE : SState :=
    { keys := keys ++ [kv.1], force_inline := false, current_indent := ind }
  match recur ctx stE kv.2 with
  | Except.error e => Except.error e
  | Except.ok (s, _) => Except.ok s

/-- Specification-side rendering of one entry of a multiline-inline table:
comments and indent at the body indent, the raw key, ` = `, the value
rendered inline-forced, and a comma-newline. -/
def ml_inline_entry (recur : Recur) (fmt : table_format_info)
    (keys : List String) (ind : Int) (kv : String × Value) :
    Except serr (List Char) :=
  let cs := format_comments kv.2.comments fmt.indent_type ind ++
    format_indent fmt.indent_type ind
  let stE : SState :=
    { keys := keys, force_inline := true, current_indent := ind }
  match recur true stE kv.2 with
  | Except.error e => Except.error e
  | Except.ok (s, _) =>
    Except.ok (cs ++ kv.1.toList ++ (" = ").toList ++ s ++ (",\n").toList)

/-- Specification-side description of the two-pass multi-line table body
(spec: first pass renders, in container order, exactly the entries not
postponed by `format_later`, at the body indent; the second pass renders
exactly the postponed entries at the original indent; a blank line follows
the first block when it is non-empty). -/
def ml_table_two_pass_spec (recur : Recur) (c : Bool) (sp : spec)
    (st : SState) (t : List (String × Value)) (fmt : table_format_info) :
    Except serr (List Char) :=
  match mapE (ml_table_leaf_entry recur c sp fmt st.keys
      (st.current_indent + fmt.body_indent))
      (t.filter fun kv => !format_later kv.2) with
  | Except.error e => Except.error e
  | Except.ok bs1 =>
    match mapE (ml_table_sub_entry recur c st.keys st.current_indent)
        (t.filter fun kv => format_later kv.2) with
    | Except.error e => Except.error e
    | Except.ok bs2 =>
      Except.ok ((if (concat_all bs1).isEmpty then concat_all bs1
        else concat_all bs1 ++ ['\n']) ++ concat_all bs2)

/-- A serializer routine preserves the key path and the indent counter. -/
def preserves_ki (st : SState) (r : SRes) : Prop :=
  ∀ o st', r = Except.ok (o, st') →
    st'.keys = st.keys ∧ st'.current_indent = st.current_indent

/-- A serializer routine preserves the key path and indent counter and
leaves the inline-forced flag either unchanged or cleared. -/
def preserves_full (st : SState) (r : SRes) : Prop :=
  ∀ o st', r = Except.ok (o, st') →
    st'.keys = st.keys ∧ st'.current_indent = st.current_indent ∧
    (st'.force_inline = st.force_inline ∨ st'.force_inline = false)

/-- A serializer result that is not the ghost inline-mismatch error. -/
def no_ghost (r : SRes) : Prop := r ≠ Except.error serr.ghost_inline_mismatch

/- ------------------------------------------------------------------
   Concrete inputs used by witnesses and counterexamples
   ------------------------------------------------------------------ -/

/-- An implicit table whose only child is an array of one table in
implicit form — valid per the specification's implicit-table rule. -/
def c1_value : Value :=
  Value.table
    [("k", Value.array [Value.table [] { fmt := table_format.implicit } []] {} [])]
    { fmt := table_format.implicit } []

/-- A one-entry leaf-only table in multiline (header) form. -/
def c4_entries : List (String × Value) := [("a", Value.integer 1 {} [])]

/-- A plain multiline table hint with zero indents. -/
def c4_fmt : table_format_info := {}

/-- One entry whose key needs quoting, for the multiline-inline table. -/
def c6_entries : List (String × Value) := [("a b", Value.integer 1 {} [])]

/-- A multiline-oneline table hint with zero indents. -/
def c6_fmt : table_format_info := { fmt := table_format.multiline_oneline }

/-- A NaN double with a clear sign bit (the formatter fields are irrelevant
on the NaN path). -/
def nan_float : float_repr :=
  { is_nan := true, is_inf := false, sign_bit := false,
    render_default := fun _ => [], render_fixed := fun _ => [],
    render_scientific := fun _ => [], render_hex := [], render_sci_max := [] }

/-- A negative infinity double. -/
def neg_inf_float : float_repr :=
  { is_nan := false, is_inf := true, sign_bit := true,
    render_default := fun _ => [], render_fixed := fun _ => [],
    render_scientific := fun _ => [], render_hex := [], render_sci_max := [] }

/-- A finite double whose default rendering is `1` (the formatter output
for `1.0` at default precision). -/
def one_float : float_repr :=
  { is_nan := false, is_inf := false, sign_bit := false,
    render_default := fun _ => ['1'], render_fixed := fun _ => ['1'],
    render_scientific := fun _ => ['1'], render_hex := ['1'],
    render_sci_max := ['1'] }

/- ==================================================================
   Theorems
   ================================================================== -/

/-- Serializer states are equal when their three fields are. -/
theorem SState_eq {a b : SState} (h1 : a.keys = b.keys)
    (h2 : a.force_inline = b.force_inline)
    (h3 : a.current_indent = b.current_indent) : a = b := by
  cases a; cases b; simp_all

theorem bslash_ne_quote : bslashC ≠ quoteC := by decide

/- ------------------------------------------------------------------
   The triple-quote replacement loop (claim C5)
   ------------------------------------------------------------------ -/

theorem head3q_cons3 (a b c : Char) (r : List Char) :
    head3q (a :: b :: c :: r) =
      (decide (a = quoteC) && decide (b = quoteC) && decide (c = quoteC)) := rfl

theorem head3q_nil : head3q [] = false := rfl

theorem head3q_one (a : Char) : head3q [a] = false := rfl

theorem head3q_two (a b : Char) : head3q [a, b] = false := rfl

theorem head3q_false_of_ne {c : Char} (l : List Char) (h : c ≠ quoteC) :
    head3q (c :: l) = false := by
  cases l with
  | nil => rfl
  | cons b m =>
    cases m with
    | nil => rfl
    | cons d r => simp [head3q_cons3, h]

theorem head3q_true_elim {l : List Char} (h : head3q l = true) :
    ∃ r, l = quoteC :: quoteC :: quoteC :: r := by
  match l with
  | [] => simp [head3q_nil] at h
  | [a] => simp [head3q_one] at h
  | [a, b] => simp [head3q_two] at h
  | a :: b :: c :: r =>
    rw [head3q_cons3] at h
    simp only [Bool.and_eq_true, decide_eq_true_eq] at h
    exact ⟨r, by rw [h.1.1, h.1.2, h.2]⟩

theorem count_3_quotes_cons (c : Char) (l : List Char) :
    count_3_quotes (c :: l) =
      (if head3q (c :: l) then 1 else 0) + count_3_quotes l := rfl

theorem count_3_quotes_le_cons (c : Char) (l : List Char) :
    count_3_quotes l ≤ count_3_quotes (c :: l) := by
  rw [count_3_quotes_cons]; split <;> omega

theorem find_3_quotes_eq_none_iff (l : List Char) :
    find_3_quotes l = Option.none ↔ count_3_quotes l = 0 := by
  induction l with
  | nil => simp [find_3_quotes, count_3_quotes]
  | cons c rest ih =>
    rw [count_3_quotes_cons]
    by_cases h : head3q (c :: rest) = true
    · simp [find_3_quotes, h]
    · simp only [Bool.not_eq_true] at h
      simp [find_3_quotes, h, Option.map_eq_none', ih]

theorem find_3_quotes_of_head3q {l : List Char} (h : head3q l = true) :
    find_3_quotes l = some 0 := by
  obtain ⟨r, rfl⟩ := head3q_true_elim h
  simp [find_3_quotes, h]

theorem head3q_of_find_zero {l : List Char} (h : find_3_quotes l = some 0) :
    head3q l = true := by
  cases l with
  | nil => simp [find_3_quotes] at h
  | cons c rest =>
    by_cases h3 : head3q (c :: rest) = true
    · exact h3
    · simp only [Bool.not_eq_true] at h3
      simp [find_3_quotes, h3] at h

theorem head3q_false_of_ne2 (a : Char) {b : Char} (l : List Char)
    (h : b ≠ quoteC) : head3q (a :: b :: l) = false := by
  cases l with
  | nil => rfl
  | cons d r => simp [head3q_cons3, h]

theorem find_3_quotes_succ {c : Char} {l : List Char} {p : Nat}
    (h : find_3_quotes (c :: l) = some (p + 1)) :
    head3q (c :: l) = false ∧ find_3_quotes l = some p := by
  by_cases h3 : head3q (c :: l) = true
  · simp [find_3_quotes, h3] at h
  · simp only [Bool.not_eq_true] at h3
    refine ⟨h3, ?_⟩
    simp only [find_3_quotes, h3, Bool.false_eq_true, if_false,
      Option.map_eq_some'] at h
    obtain ⟨q, hq, hpq⟩ := h
    have hqp : q = p := by omega
    rw [← hqp]
    exact hq

theorem replace_3_quotes_cons (c : Char) (l : List Char) (p : Nat) :
    replace_3_quotes (c :: l) (p + 1) = c :: replace_3_quotes l p := by
  have h4 : p + 1 + 3 = (p + 3) + 1 := by omega
  simp [replace_3_quotes, List.take_succ_cons, h4, List.drop_succ_cons]

theorem count_3_quotes_replace_lt :
    ∀ (l : List Char) (p : Nat), find_3_quotes l = some p →
      count_3_quotes (replace_3_quotes l p) < count_3_quotes l := by
  intro l
  induction l with
  | nil => intro p h; simp [find_3_quotes] at h
  | cons c rest ih =>
    intro p h
    by_cases h3 : head3q (c :: rest) = true
    · have hp : p = 0 := by
        rw [find_3_quotes_of_head3q h3] at h
        exact (Option.some_inj.mp h).symm
      subst hp
      obtain ⟨r, hr⟩ := head3q_true_elim h3
      rw [hr] at h3 ⊢
      have hrepl : replace_3_quotes (quoteC :: quoteC :: quoteC :: r) 0 =
          quoteC :: quoteC :: bslashC :: quoteC :: r := by
        simp [replace_3_quotes]
      rw [hrepl]
      have e1 : head3q (quoteC :: quoteC :: bslashC :: quoteC :: r) = false := by
        simp [head3q_cons3, bslash_ne_quote]
      have e2 : head3q (quoteC :: bslashC :: quoteC :: r) = false := by
        simp [head3q_cons3, bslash_ne_quote]
      have e3 : head3q (bslashC :: quoteC :: r) = false :=
        head3q_false_of_ne _ bslash_ne_quote
      have hL : count_3_quotes (quoteC :: quoteC :: bslashC :: quoteC :: r) =
          count_3_quotes (quoteC :: r) := by
        rw [count_3_quotes_cons, e1, count_3_quotes_cons, e2,
          count_3_quotes_cons, e3]
        simp
      have hR : count_3_quotes (quoteC :: quoteC :: quoteC :: r) =
          1 + count_3_quotes (quoteC :: quoteC :: r) := by
        rw [count_3_quotes_cons, h3]
        simp
      rw [hL, hR]
      have hle := count_3_quotes_le_cons quoteC (quoteC :: r)
      omega
    · simp only [Bool.not_eq_true] at h3
      match p, h with
      | 0, h => rw [head3q_of_find_zero h] at h3; simp at h3
      | p' + 1, h =>
        obtain ⟨-, hrest⟩ := find_3_quotes_succ h
        rw [replace_3_quotes_cons]
        have ihx := ih p' hrest
        suffices hsc : head3q (c :: replace_3_quotes rest p') = false by
          have hL : count_3_quotes (c :: replace_3_quotes rest p') =
              count_3_quotes (replace_3_quotes rest p') := by
            rw [count_3_quotes_cons, hsc]; simp
          have hR : count_3_quotes (c :: rest) = count_3_quotes rest := by
            rw [count_3_quotes_cons, h3]; simp
          rw [hL, hR]
          exact ihx
        by_cases hc : c = quoteC
        · subst hc
          match p', hrest with
          | 0, hrest =>
            obtain ⟨t, ht⟩ := head3q_true_elim (head3q_of_find_zero hrest)
            rw [ht] at h3
            simp [head3q_cons3] at h3
          | p'' + 1, hrest =>
            match rest, hrest with
            | r0 :: rest', hrest =>
              obtain ⟨hr3, hrest'⟩ := find_3_quotes_succ hrest
              rw [replace_3_quotes_cons]
              by_cases hr0 : r0 = quoteC
              · subst hr0
                match p'', hrest' with
                | 0, hrest' =>
                  obtain ⟨t, ht⟩ := head3q_true_elim (head3q_of_find_zero hrest')
                  rw [ht] at hr3
                  simp [head3q_cons3] at hr3
                | p3 + 1, hrest' =>
                  match rest', hrest' with
                  | r1 :: rest'', hrest' =>
                    rw [replace_3_quotes_cons]
                    have hr1 : r1 ≠ quoteC := by
                      intro hq
                      rw [hq] at h3
                      simp [head3q_cons3] at h3
                    simp [head3q_cons3, hr1]
              · exact head3q_false_of_ne2 _ _ hr0
        · exact head3q_false_of_ne _ hc

theorem break_3_quotes_none :
    ∀ (n : Nat) (l : List Char), count_3_quotes l ≤ n →
      find_3_quotes (break_3_quotes n l) = Option.none := by
  intro n
  induction n with
  | zero =>
    intro l h
    have h0 : count_3_quotes l = 0 := by omega
    show find_3_quotes (break_3_quotes 0 l) = Option.none
    rw [show break_3_quotes 0 l = l from rfl]
    exact (find_3_quotes_eq_none_iff l).mpr h0
  | succ n ih =>
    intro l h
    cases hf : find_3_quotes l with
    | none => simp only [break_3_quotes, hf]
    | some p =>
      have hlt := count_3_quotes_replace_lt l p hf
      simp only [break_3_quotes, hf]
      exact ih _ (by omega)

theorem break_3_quotes_stable (n : Nat) {l : List Char}
    (h : find_3_quotes l = Option.none) : break_3_quotes n l = l := by
  cases n <;> simp [break_3_quotes, h]

theorem break_3_quotes_add :
    ∀ (n extra : Nat) (l : List Char), count_3_quotes l ≤ n →
      break_3_quotes (n + extra) l = break_3_quotes n l := by
  intro n
  induction n with
  | zero =>
    intro extra l h
    have h0 : count_3_quotes l = 0 := by omega
    have hn : find_3_quotes l = Option.none :=
      (find_3_quotes_eq_none_iff l).mpr h0
    rw [break_3_quotes_stable _ hn, break_3_quotes_stable _ hn]
  | succ n ih =>
    intro extra l h
    cases hf : find_3_quotes l with
    | none => rw [break_3_quotes_stable _ hf, break_3_quotes_stable _ hf]
    | some p =>
      have hlt := count_3_quotes_replace_lt l p hf
      have harr : n + 1 + extra = (n + extra) + 1 := by omega
      rw [harr]
      simp only [break_3_quotes, hf]
      exact ih extra _ (by omega)

theorem count_3_quotes_pos_of_infix {l : List Char}
    (h : [quoteC, quoteC, quoteC] <:+: l) : 0 < count_3_quotes l := by
  obtain ⟨s, t, rfl⟩ := h
  induction s with
  | nil =>
    rw [List.nil_append, List.cons_append, count_3_quotes_cons]
    have h3 : head3q (quoteC :: ([quoteC, quoteC] ++ t)) = true := by
      simp [head3q_cons3]
    rw [h3, if_pos rfl]
    omega
  | cons c s' ih =>
    calc 0 < count_3_quotes (s' ++ [quoteC, quoteC, quoteC] ++ t) := ih
    _ ≤ count_3_quotes (c :: (s' ++ [quoteC, quoteC, quoteC] ++ t)) :=
        count_3_quotes_le_cons _ _

/- ------------------------------------------------------------------
   Digit strings and the spacer pass (claims C8, C9)
   ------------------------------------------------------------------ -/

theorem digit_char_plain : ∀ (u : Bool) (d : Nat), d < 16 →
    digit_char u d ≠ '_' ∧ digit_char u d ≠ '-' ∧ digit_char u d ≠ '+' := by
  decide

theorem nb_aux_mem {base : Nat} (hb : 2 ≤ base) (hb16 : base ≤ 16) (u : Bool) :
    ∀ fuel n c, c ∈ nb_aux base u fuel n → ∃ d, d < 16 ∧ c = digit_char u d := by
  intro fuel
  induction fuel with
  | zero => intro n c hc; simp [nb_aux] at hc
  | succ fuel ih =>
    intro n c hc
    by_cases hn : n = 0
    · simp [nb_aux, hn] at hc
    · rw [nb_aux, if_neg hn] at hc
      rcases List.mem_cons.mp hc with h | h
      · refine ⟨n % base, ?_, h⟩
        have := Nat.mod_lt n (show 0 < base by omega)
        omega
      · exact ih _ _ h

theorem nat_base_chars_mem {base : Nat} (hb : 2 ≤ base) (hb16 : base ≤ 16)
    (u : Bool) (n : Nat) :
    ∀ c ∈ nat_base_chars base u n, ∃ d, d < 16 ∧ c = digit_char u d := by
  intro c hc
  unfold nat_base_chars at hc
  by_cases hn : n = 0
  · rw [if_pos hn] at hc
    simp at hc
    exact ⟨0, by omega, by rw [hc]; rfl⟩
  · rw [if_neg hn, List.mem_reverse] at hc
    exact nb_aux_mem hb hb16 u _ _ _ hc

theorem nat_base_chars_ne_nil (base : Nat) (u : Bool) (n : Nat) :
    nat_base_chars base u n ≠ [] := by
  unfold nat_base_chars
  by_cases hn : n = 0
  · simp [hn]
  · rw [if_neg hn]
    have : nb_aux base u (n + 1) n = digit_char u (n % base) ::
        nb_aux base u n (n / base) := by
      rw [nb_aux, if_neg hn]
    simp [this]

/-- Counter irrelevance of the spacer pass: only the counter's residue
matters once the counter is positive. -/
theorem spacer_aux_mod (s : Nat) :
    ∀ (m : List Char) (c₁ c₂ : Nat), 0 < c₁ → 0 < c₂ → c₁ % s = c₂ % s →
      spacer_aux s c₁ m = spacer_aux s c₂ m := by
  intro m
  induction m with
  | nil => intro c₁ c₂ _ _ _; rfl
  | cons x rest ih =>
    intro c₁ c₂ h1 h2 hmod
    show (if c₁ ≠ 0 ∧ c₁ % s = 0 then ['_'] else []) ++
        x :: spacer_aux s (c₁ + 1) rest =
      (if c₂ ≠ 0 ∧ c₂ % s = 0 then ['_'] else []) ++
        x :: spacer_aux s (c₂ + 1) rest
    have hcond : (c₁ ≠ 0 ∧ c₁ % s = 0) ↔ (c₂ ≠ 0 ∧ c₂ % s = 0) := by
      constructor <;> intro hx <;> exact ⟨by omega, by omega⟩
    have hrec : spacer_aux s (c₁ + 1) rest = spacer_aux s (c₂ + 1) rest := by
      refine ih (c₁ + 1) (c₂ + 1) (by omega) (by omega) ?_
      rw [Nat.add_mod c₁ 1 s, Nat.add_mod c₂ 1 s, hmod]
    rw [hrec]
    by_cases hb : c₁ ≠ 0 ∧ c₁ % s = 0
    · rw [if_pos hb, if_pos (hcond.mp hb)]
    · rw [if_neg hb, if_neg (fun hx => hb (hcond.mpr hx))]

/-- Block decomposition of the spacer pass started at counter zero: the
first `s` characters pass through, then (if anything remains) one
underscore and the pass restarted on the remainder. -/
theorem spacer_aux_block (s : Nat) (hs : 0 < s) (m : List Char) :
    spacer_aux s 0 m = m.take s ++
      (if m.length ≤ s then [] else '_' :: spacer_aux s 0 (m.drop s)) := by
  have step : ∀ (t : Nat) (m : List Char) (c : Nat), 0 < c → c + t = s →
      spacer_aux s c m = m.take t ++
        (if m.length ≤ t then [] else '_' :: spacer_aux s 0 (m.drop t)) := by
    intro t
    induction t with
    | zero =>
      intro m c hc hcs
      have hcseq : c = s := by omega
      cases m with
      | nil => simp [spacer_aux]
      | cons x xs =>
        show (if c ≠ 0 ∧ c % s = 0 then ['_'] else []) ++
            x :: spacer_aux s (c + 1) xs = _
        rw [if_pos ⟨by omega, by rw [hcseq]; exact Nat.mod_self s⟩]
        have h1 : spacer_aux s 0 (x :: xs) = x :: spacer_aux s 1 xs := by
          show (if (0 : Nat) ≠ 0 ∧ 0 % s = 0 then ['_'] else []) ++
              x :: spacer_aux s (0 + 1) xs = _
          simp
        have h2 : spacer_aux s (c + 1) xs = spacer_aux s 1 xs := by
          refine spacer_aux_mod s xs (c + 1) 1 (by omega) (by omega) ?_
          rw [hcseq, Nat.add_mod_left]
        simp [h1, h2]
    | succ t iht =>
      intro m c hc hcs
      cases m with
      | nil => simp [spacer_aux]
      | cons x xs =>
        show (if c ≠ 0 ∧ c % s = 0 then ['_'] else []) ++
            x :: spacer_aux s (c + 1) xs = _
        have hcmod : c % s = c := Nat.mod_eq_of_lt (by omega)
        rw [if_neg (by omega)]
        rw [List.take_succ_cons, List.drop_succ_cons]
        rw [iht xs (c + 1) (by omega) (by omega)]
        by_cases hl : xs.length ≤ t
        · rw [if_pos hl, if_pos (by simpa using hl)]
          simp
        · rw [if_neg hl, if_neg (by simpa using hl)]
          simp
  cases m with
  | nil => simp [spacer_aux]
  | cons x xs =>
    have h1 : spacer_aux s 0 (x :: xs) = x :: spacer_aux s 1 xs := by
      show (if (0 : Nat) ≠ 0 ∧ 0 % s = 0 then ['_'] else []) ++
          x :: spacer_aux s (0 + 1) xs = _
      simp
    rw [h1]
    obtain ⟨u, rfl⟩ : ∃ u, s = u + 1 := ⟨s - 1, by omega⟩
    rw [step u xs 1 (by omega) (by omega)]
    rw [List.take_succ_cons, List.drop_succ_cons]
    by_cases hl : xs.length ≤ u
    · rw [if_pos hl, if_pos (by simpa using hl)]
      simp
    · rw [if_neg hl, if_neg (by simpa using hl)]
      simp

theorem spacer_aux_length (s : Nat) (hs : 0 < s) :
    ∀ (n : Nat) (m : List Char), m.length = n →
      (spacer_aux s 0 m).length = m.length + (m.length - 1) / s := by
  intro n
  induction n using Nat.strong_induction_on with
  | _ n ih =>
    intro m hm
    rw [spacer_aux_block s hs m]
    by_cases hl : m.length ≤ s
    · rw [if_pos hl]
      rw [List.take_of_length_le hl]
      have h0 : (m.length - 1) / s = 0 := Nat.div_eq_of_lt (by omega)
      simp [h0]
    · rw [if_neg hl]
      have hdrop : (m.drop s).length = m.length - s := by simp
      have hrec := ih (m.length - s) (by omega) (m.drop s) hdrop
      simp only [List.length_append, List.length_take, List.length_cons]
      rw [hrec, hdrop]
      have hmin : min s m.length = s := by omega
      have harith : (m.length - 1) / s = 1 + (m.length - s - 1) / s := by
        have hsplit : m.length - 1 = s + (m.length - s - 1) := by omega
        rw [hsplit, Nat.add_div_left _ hs]
        omega
      omega

theorem spacer_aux_ne_nil (s c : Nat) {m : List Char} (h : m ≠ []) :
    spacer_aux s c m ≠ [] := by
  cases m with
  | nil => exact absurd rfl h
  | cons y rest =>
    show (if c ≠ 0 ∧ c % s = 0 then ['_'] else []) ++
        y :: spacer_aux s (c + 1) rest ≠ []
    simp

theorem spacer_aux_mem (s : Nat) :
    ∀ (m : List Char) (c : Nat) (x : Char), x ∈ spacer_aux s c m →
      x ∈ m ∨ x = '_' := by
  intro m
  induction m with
  | nil => intro c x hx; simp [spacer_aux] at hx
  | cons y rest ih =>
    intro c x hx
    rw [show spacer_aux s c (y :: rest) =
        (if c ≠ 0 ∧ c % s = 0 then ['_'] else []) ++
          y :: spacer_aux s (c + 1) rest from rfl] at hx
    rcases List.mem_append.mp hx with h | h
    · by_cases hb : c ≠ 0 ∧ c % s = 0
      · rw [if_pos hb] at h
        simp at h
        right; exact h
      · rw [if_neg hb] at h
        simp at h
    · rcases List.mem_cons.mp h with h | h
      · left; rw [h]; exact List.mem_cons_self _ _
      · rcases ih (c + 1) x h with h | h
        · left; exact List.mem_cons_of_mem _ h
        · right; exact h

theorem spacer_aux_getLast (s : Nat) :
    ∀ (m : List Char) (c : Nat), m ≠ [] →
      (spacer_aux s c m).getLast? = m.getLast? := by
  intro m
  induction m with
  | nil => intro c h; exact absurd rfl h
  | cons y rest ih =>
    intro c _
    rw [show spacer_aux s c (y :: rest) =
        (if c ≠ 0 ∧ c % s = 0 then ['_'] else []) ++
          y :: spacer_aux s (c + 1) rest from rfl]
    rw [List.getLast?_append]
    cases hrest : rest with
    | nil =>
      show ((y :: spacer_aux s (c + 1) []).getLast?).or _ = _
      rfl
    | cons z zs =>
      have hne : spacer_aux s (c + 1) (z :: zs) ≠ [] :=
        spacer_aux_ne_nil s (c + 1) (by simp)
      obtain ⟨b, bl, hb⟩ : ∃ b bl, spacer_aux s (c + 1) (z :: zs) = b :: bl := by
        cases hx : spacer_aux s (c + 1) (z :: zs) with
        | nil => exact absurd hx hne
        | cons b bl => exact ⟨b, bl, rfl⟩
      have hrec : (spacer_aux s (c + 1) (z :: zs)).getLast? =
          (z :: zs).getLast? := by
        have hx := ih (c + 1) (by rw [hrest]; simp)
        rw [hrest] at hx
        exact hx
      have h1 : (y :: spacer_aux s (c + 1) (z :: zs)).getLast? =
          (spacer_aux s (c + 1) (z :: zs)).getLast? := by
        rw [hb]; exact List.getLast?_cons_cons
      rw [h1, hrec]
      rw [List.getLast?_cons_cons]
      cases hg : (z :: zs).getLast? with
      | none =>
        rw [List.getLast?_eq_none_iff] at hg
        simp at hg
      | some a => rfl

theorem getD_mem_of_lt {l : List Char} {j : Nat} (h : j < l.length) (d : Char) :
    l.getD j d ∈ l := by
  simp only [List.getD_eq_getElem?_getD, List.getElem?_eq_getElem h,
    Option.getD_some]
  exact List.getElem_mem h

/-- Underscore positions of the spacer pass read from the start of its
output (i.e. from the right of the final digit string): position j holds
an underscore exactly when j is congruent to s modulo s+1. -/
theorem spacer_aux_pos (s : Nat) (hs : 0 < s) :
    ∀ (n : Nat) (m : List Char), m.length = n → '_' ∉ m →
      ∀ j, j < (spacer_aux s 0 m).length →
        ((spacer_aux s 0 m).getD j ' ' = '_' ↔ j % (s + 1) = s) := by
  intro n
  induction n using Nat.strong_induction_on with
  | _ n ih =>
    intro m hm hnu j hj
    rw [spacer_aux_block s hs m] at hj ⊢
    by_cases hl : m.length ≤ s
    · rw [if_pos hl] at hj ⊢
      rw [List.take_of_length_le hl] at hj ⊢
      rw [List.append_nil] at hj ⊢
      have hmem := getD_mem_of_lt hj ' '
      have hne : m.getD j ' ' ≠ '_' := fun hx => hnu (hx ▸ hmem)
      have hmod : j % (s + 1) = j := Nat.mod_eq_of_lt (by omega)
      constructor
      · intro hx; exact absurd hx hne
      · intro hx; omega
    · rw [if_neg hl] at hj ⊢
      have htake : (m.take s).length = s := by
        simp
        omega
      rcases Nat.lt_trichotomy j s with hjs | hjs | hjs
      · rw [List.getD_append _ _ _ _ (by omega)]
        have hjt : j < (m.take s).length := by omega
        have hmem := getD_mem_of_lt hjt ' '
        have hne : (m.take s).getD j ' ' ≠ '_' :=
          fun hx => hnu (List.take_subset s m (hx ▸ hmem))
        have hmod : j % (s + 1) = j := Nat.mod_eq_of_lt (by omega)
        constructor
        · intro hx; exact absurd hx hne
        · intro hx; omega
      · subst hjs
        rw [List.getD_append_right _ _ _ _ (by omega)]
        rw [htake, Nat.sub_self, List.getD_cons_zero]
        have hmod : j % (j + 1) = j := Nat.mod_eq_of_lt (by omega)
        constructor
        · intro _
          omega
        · intro _
          rfl
      · rw [List.getD_append_right _ _ _ _ (by omega)]
        rw [htake]
        obtain ⟨jp, hjp⟩ : ∃ jp, j - s = jp + 1 := ⟨j - s - 1, by omega⟩
        rw [hjp, List.getD_cons_succ]
        have hdl : (m.drop s).length = m.length - s := by simp
        have hbound : jp < (spacer_aux s 0 (m.drop s)).length := by
          rw [List.length_append, List.length_cons, htake] at hj
          omega
        have hrec := ih (m.length - s) (by omega) (m.drop s) hdl
          (fun hx => hnu (List.drop_subset s m hx)) jp hbound
        rw [hrec]
        have hjj : j = jp + (s + 1) := by omega
        rw [hjj, Nat.add_mod_right]

theorem spacer_aux_filter (s : Nat) :
    ∀ (m : List Char) (c : Nat), '_' ∉ m →
      (spacer_aux s c m).filter (fun x => x != '_') = m := by
  intro m
  induction m with
  | nil => intro c _; rfl
  | cons y rest ih =>
    intro c hnu
    rw [show spacer_aux s c (y :: rest) =
        (if c ≠ 0 ∧ c % s = 0 then ['_'] else []) ++
          y :: spacer_aux s (c + 1) rest from rfl]
    rw [List.filter_append]
    have hy : (y != '_') = true := by
      have : y ≠ '_' := fun hx => hnu (by rw [hx]; exact List.mem_cons_self _ _)
      simpa using this
    have hrest : '_' ∉ rest := fun hx => hnu (List.mem_cons_of_mem _ hx)
    have h2 : (y :: spacer_aux s (c + 1) rest).filter (fun x => x != '_') =
        y :: rest := by
      rw [List.filter_cons, if_pos hy, ih (c + 1) hrest]
    rw [h2]
    by_cases hb : c ≠ 0 ∧ c % s = 0
    · rw [if_pos hb]
      rfl
    · rw [if_neg hb]
      rfl

/-- On a digit string without underscores the trailing-underscore pop of
`spacer_core` never fires. -/
theorem spacer_core_eq (k : Nat) (body : List Char)
    (hne : body ≠ []) (hchars : ∀ c ∈ body, c ≠ '_') :
    spacer_core k body = (spacer_aux k 0 body.reverse).reverse := by
  have hpop : (spacer_aux k 0 body.reverse).getLast? ≠ some '_' := by
    rw [spacer_aux_getLast k _ 0 (by simpa using hne)]
    rw [List.getLast?_reverse]
    intro hx
    cases hhead : body.head? with
    | none =>
      rw [hhead] at hx
      simp at hx
    | some c0 =>
      rw [hhead] at hx
      have hc0mem : c0 ∈ body := List.mem_of_mem_head? hhead
      have hc0 := hchars c0 hc0mem
      simp at hx
      exact hc0 hx
  unfold spacer_core
  rw [if_neg hpop]

/-- The sign-stripping wrapper of `insert_spacer` on an unsigned digit
string: the result is the reversed spacer pass over the reversed digits. -/
theorem insert_spacer_unsigned (k : Nat) (hk : 0 < k) (body : List Char)
    (hne : body ≠ []) (hchars : ∀ c ∈ body, c ≠ '_' ∧ c ≠ '-' ∧ c ≠ '+') :
    insert_spacer k body = (spacer_aux k 0 body.reverse).reverse := by
  obtain ⟨c0, rest, rfl⟩ : ∃ c0 rest, body = c0 :: rest := by
    cases body with
    | nil => exact absurd rfl hne
    | cons c0 rest => exact ⟨c0, rest, rfl⟩
  have hc0 := hchars c0 (List.mem_cons_self _ _)
  show (if k = 0 then c0 :: rest
    else if c0 = '+' ∨ c0 = '-' then c0 :: spacer_core k rest
    else spacer_core k (c0 :: rest)) = _
  rw [if_neg (show ¬ k = 0 by omega)]
  rw [if_neg (show ¬(c0 = '+' ∨ c0 = '-') by
    rintro (h | h) <;> simp [h] at hc0)]
  exact spacer_core_eq k _ (by simp) (fun c hc => (hchars c hc).1)

/-- `insert_spacer` on a minus-signed digit string: the sign is split off,
spacers are inserted into the digits only, and the sign is reattached. -/
theorem insert_spacer_negative (k : Nat) (hk : 0 < k) (body : List Char)
    (hne : body ≠ []) (hchars : ∀ c ∈ body, c ≠ '_' ∧ c ≠ '-' ∧ c ≠ '+') :
    insert_spacer k ('-' :: body) =
      '-' :: (spacer_aux k 0 body.reverse).reverse := by
  show (if k = 0 then '-' :: body
    else if '-' = '+' ∨ '-' = '-' then '-' :: spacer_core k body
    else spacer_core k ('-' :: body)) = _
  rw [if_neg (show ¬ k = 0 by omega)]
  rw [if_pos (Or.inr rfl)]
  rw [spacer_core_eq k body hne (fun c hc => (hchars c hc).1)]

theorem nat10_chars_plain (n : Nat) :
    ∀ c ∈ nat_base_chars 10 false n, c ≠ '_' ∧ c ≠ '-' ∧ c ≠ '+' := by
  intro c hc
  obtain ⟨d, hd, rfl⟩ := nat_base_chars_mem (by omega) (by omega) false n c hc
  exact digit_char_plain false d hd

theorem spacer_core_mem (k : Nat) (body : List Char) :
    ∀ x ∈ spacer_core k body, x ∈ body ∨ x = '_' := by
  intro x hx
  unfold spacer_core at hx
  rw [List.mem_reverse] at hx
  have hx2 : x ∈ spacer_aux k 0 body.reverse := by
    by_cases hp : (spacer_aux k 0 body.reverse).getLast? = some '_'
    · rw [if_pos hp] at hx
      exact List.dropLast_subset _ hx
    · rw [if_neg hp] at hx
      exact hx
  rcases spacer_aux_mem k body.reverse 0 x hx2 with h | h
  · left; exact List.mem_reverse.mp h
  · right; exact h

theorem insert_spacer_mem (k : Nat) (l : List Char) :
    ∀ x ∈ insert_spacer k l, x ∈ l ∨ x = '_' := by
  intro x hx
  cases l with
  | nil => simp [insert_spacer] at hx
  | cons c rest =>
    rw [show insert_spacer k (c :: rest) =
        (if k = 0 then c :: rest
         else if c = '+' ∨ c = '-' then c :: spacer_core k rest
         else spacer_core k (c :: rest)) from rfl] at hx
    split at hx
    · left; exact hx
    · split at hx
      · rcases List.mem_cons.mp hx with h | h
        · left; rw [h]; exact List.mem_cons_self _ _
        · rcases spacer_core_mem k rest x h with h | h
          · left; exact List.mem_cons_of_mem _ h
          · right; exact h
      · exact spacer_core_mem k (c :: rest) x hx

theorem pad_left_mem (c : Char) (w : Nat) (l : List Char) :
    ∀ x ∈ pad_left c w l, x = c ∨ x ∈ l := by
  intro x hx
  unfold pad_left at hx
  rcases List.mem_append.mp hx with h | h
  · left; exact List.eq_of_mem_replicate h
  · right; exact h

theorem radix_payload_plain (k w : Nat) {base : Nat} (hb2 : 2 ≤ base)
    (hb16 : base ≤ 16) (u : Bool) (n : Nat) :
    ∀ c ∈ insert_spacer k (pad_left '0' w (nat_base_chars base u n)),
      c ≠ '-' ∧ c ≠ '+' := by
  intro c hc
  rcases insert_spacer_mem k _ c hc with h | h
  · rcases pad_left_mem _ _ _ c h with h | h
    · rw [h]; exact ⟨by decide, by decide⟩
    · obtain ⟨d, hd, rfl⟩ := nat_base_chars_mem hb2 hb16 u n c h
      exact ⟨(digit_char_plain u d hd).2.1, (digit_char_plain u d hd).2.2⟩
  · rw [h]; exact ⟨by decide, by decide⟩

theorem bin_core_mem (k : Nat) :
    ∀ (fuel x bits : Nat) (c : Char), c ∈ (bin_core k fuel x bits).1 →
      c = '0' ∨ c = '1' ∨ c = '_' := by
  intro fuel
  induction fuel with
  | zero => intro x bits c hc; simp [bin_core] at hc
  | succ fuel ih =>
    intro x bits c hc
    rw [bin_core] at hc
    by_cases hx : x = 0
    · rw [if_pos hx] at hc; simp at hc
    · rw [if_neg hx] at hc
      simp only [List.mem_append] at hc
      rcases hc with h | h
      · split at h
        · simp at h; right; right; exact h
        · simp at h
      · rcases List.mem_cons.mp h with h | h
        · split at h
          · right; left; exact h
          · left; exact h
        · exact ih _ _ _ h

theorem bin_pad_mem (k : Nat) :
    ∀ (gas bits : Nat) (c : Char), c ∈ bin_pad k gas bits →
      c = '0' ∨ c = '_' := by
  intro gas
  induction gas with
  | zero => intro bits c hc; simp [bin_pad] at hc
  | succ gas ih =>
    intro bits c hc
    rw [bin_pad] at hc
    simp only [List.mem_append] at hc
    rcases hc with h | h
    · split at h
      · simp at h; right; exact h
      · simp at h
    · rcases List.mem_cons.mp h with h | h
      · left; exact h
      · exact ih _ _ h

theorem bin_chars_mem (fmt : integer_format_info) (n : Nat) :
    ∀ c ∈ bin_chars fmt n, c = '0' ∨ c = '1' ∨ c = '_' := by
  intro c hc
  unfold bin_chars at hc
  rw [List.mem_reverse, List.mem_append] at hc
  rcases hc with h | h
  · exact bin_core_mem fmt.spacer _ _ _ c h
  · rcases bin_pad_mem fmt.spacer _ _ c h with h | h
    · left; exact h
    · right; right; exact h

/-- C9: for every decimal integer with a positive spacer, zero width and no
numeric suffix in effect, the encoder splits off the sign, and the digit
part `d` of the output satisfies: removing the underscores gives back the
plain decimal digits of the magnitude; the first character after the sign
is not an underscore (no separator adjacent to or left of the sign); and
reading `d` from the right, underscores sit exactly at the positions
congruent to `spacer` modulo `spacer + 1`, i.e. exactly at spacer-digit
boundaries counted from the rightmost digit. -/
theorem C9_integer_decimal_spacer (i : Int) (fmt : integer_format_info)
    (sp : spec) (hf : fmt.fmt = integer_format.dec) (hw : fmt.width = 0)
    (hs : 0 < fmt.spacer) (hx : sp.ext_num_suffix = false) :
    ∃ d : List Char,
      serialize_integer i fmt sp =
        Except.ok ((if i < 0 then ['-'] else []) ++ d) ∧
      d.filter (fun c => c != '_') = nat_base_chars 10 false i.natAbs ∧
      d.getD 0 ' ' ≠ '_' ∧
      ∀ j, j < d.length →
        (d.reverse.getD j ' ' = '_' ↔ j % (fmt.spacer + 1) = fmt.spacer) := by
  obtain ⟨f, w, k, u, suf⟩ := fmt
  have hf2 : f = integer_format.dec := hf
  have hw2 : w = 0 := hw
  have hk : 0 < k := hs
  subst hf2
  subst hw2
  have hdne := nat_base_chars_ne_nil 10 false i.natAbs
  have hchars := nat10_chars_plain i.natAbs
  have hnu : '_' ∉ (nat_base_chars 10 false i.natAbs).reverse := by
    rw [List.mem_reverse]
    intro h
    exact (hchars '_' h).1 rfl
  have hser : serialize_integer i ⟨integer_format.dec, 0, k, u, suf⟩ sp =
      Except.ok (insert_spacer k (int_dec_chars i)) := by
    show Except.ok (if sp.ext_num_suffix ∧ suf ≠ "" then
        insert_spacer k (pad_left ' ' 0 (int_dec_chars i)) ++
          '_' :: suf.toList
      else insert_spacer k (pad_left ' ' 0 (int_dec_chars i))) = _
    rw [if_neg (by simp [hx])]
    have hpad : pad_left ' ' 0 (int_dec_chars i) = int_dec_chars i := by
      unfold pad_left
      simp
    rw [hpad]
  refine ⟨(spacer_aux k 0 (nat_base_chars 10 false i.natAbs).reverse).reverse,
    ?_, ?_, ?_, ?_⟩
  · by_cases hi : i < 0
    · have hidc : int_dec_chars i = '-' :: nat_base_chars 10 false i.natAbs := by
        unfold int_dec_chars
        rw [if_pos hi]
        rfl
      rw [hser, hidc, insert_spacer_negative k hk _ hdne hchars, if_pos hi]
      rfl
    · have hidc : int_dec_chars i = nat_base_chars 10 false i.natAbs := by
        unfold int_dec_chars
        rw [if_neg hi]
        rfl
      rw [hser, hidc, insert_spacer_unsigned k hk _ hdne hchars, if_neg hi]
      rfl
  · rw [List.filter_reverse, spacer_aux_filter k _ 0 hnu, List.reverse_reverse]
  · obtain ⟨c0, dr, hds⟩ : ∃ c0 dr,
        nat_base_chars 10 false i.natAbs = c0 :: dr := by
      cases hq : nat_base_chars 10 false i.natAbs with
      | nil => exact absurd hq hdne
      | cons c0 dr => exact ⟨c0, dr, rfl⟩
    have hh : (spacer_aux k 0
        (nat_base_chars 10 false i.natAbs).reverse).reverse.head? = some c0 := by
      rw [List.head?_reverse]
      rw [spacer_aux_getLast k _ 0 (by simp [hds])]
      rw [List.getLast?_reverse]
      rw [hds]
      rfl
    cases hd0 : (spacer_aux k 0
        (nat_base_chars 10 false i.natAbs).reverse).reverse with
    | nil =>
      rw [hd0] at hh
      simp at hh
    | cons a d' =>
      rw [hd0] at hh
      simp at hh
      rw [List.getD_cons_zero, hh]
      exact (hchars c0 (by rw [hds]; exact List.mem_cons_self _ _)).1
  · intro j hj
    rw [List.reverse_reverse]
    rw [List.length_reverse] at hj
    exact spacer_aux_pos k hk
      ((nat_base_chars 10 false i.natAbs).reverse.length) _ rfl hnu j hj

/-- C8: the integer encoder raises `negative_non_decimal` exactly when the
value is negative and the radix is hex, oct or bin (with the four-valued
radix enumeration of fmt.hpp, that is: the radix is not dec); and every
non-negative integer under a non-decimal radix renders successfully to a
string that begins with `0x`, `0o` or `0b` respectively and contains no
sign character. -/
theorem C8_integer_nondecimal (i : Int) (fmt : integer_format_info)
    (sp : spec) :
    (serialize_integer i fmt sp = Except.error serr.negative_non_decimal ↔
      (i < 0 ∧ fmt.fmt ≠ integer_format.dec)) ∧
    (0 ≤ i → fmt.fmt ≠ integer_format.dec →
      ∃ out, serialize_integer i fmt sp = Except.ok out ∧
        out.take 2 = (match fmt.fmt with
          | integer_format.hex => "0x".toList
          | integer_format.oct => "0o".toList
          | _ => "0b".toList) ∧
        ∀ c ∈ out, c ≠ '-' ∧ c ≠ '+') := by
  obtain ⟨f, w, k, u, suf⟩ := fmt
  cases f with
  | dec =>
    constructor
    · constructor
      · intro h
        simp [serialize_integer] at h
      · rintro ⟨-, hf⟩
        exact absurd rfl hf
    · intro _ hf
      exact absurd rfl hf
  | hex =>
    by_cases hi : i < 0
    · refine ⟨⟨fun _ => ⟨hi, by simp⟩, fun _ => by simp [serialize_integer, hi]⟩,
        fun h0 _ => absurd hi (by omega)⟩
    · constructor
      · constructor
        · intro h
          simp [serialize_integer, hi] at h
        · rintro ⟨hi2, -⟩
          exact absurd hi2 hi
      · intro _ _
        refine ⟨'0' :: 'x' ::
          insert_spacer k (pad_left '0' w (nat_base_chars 16 u i.natAbs)),
          by simp [serialize_integer, hi], rfl, ?_⟩
        intro c hc
        rcases List.mem_cons.mp hc with h | h
        · rw [h]; exact ⟨by decide, by decide⟩
        rcases List.mem_cons.mp h with h | h
        · rw [h]; exact ⟨by decide, by decide⟩
        · exact radix_payload_plain k w (by omega) (by omega) u i.natAbs c h
  | oct =>
    by_cases hi : i < 0
    · refine ⟨⟨fun _ => ⟨hi, by simp⟩, fun _ => by simp [serialize_integer, hi]⟩,
        fun h0 _ => absurd hi (by omega)⟩
    · constructor
      · constructor
        · intro h
          simp [serialize_integer, hi] at h
        · rintro ⟨hi2, -⟩
          exact absurd hi2 hi
      · intro _ _
        refine ⟨'0' :: 'o' ::
          insert_spacer k (pad_left '0' w (nat_base_chars 8 false i.natAbs)),
          by simp [serialize_integer, hi], rfl, ?_⟩
        intro c hc
        rcases List.mem_cons.mp hc with h | h
        · rw [h]; exact ⟨by decide, by decide⟩
        rcases List.mem_cons.mp h with h | h
        · rw [h]; exact ⟨by decide, by decide⟩
        · exact radix_payload_plain k w (by omega) (by omega) false i.natAbs c h
  | bin =>
    by_cases hi : i < 0
    · refine ⟨⟨fun _ => ⟨hi, by simp⟩, fun _ => by simp [serialize_integer, hi]⟩,
        fun h0 _ => absurd hi (by omega)⟩
    · constructor
      · constructor
        · intro h
          simp [serialize_integer, hi] at h
        · rintro ⟨hi2, -⟩
          exact absurd hi2 hi
      · intro _ _
        refine ⟨'0' :: 'b' ::
          bin_chars ⟨integer_format.bin, w, k, u, suf⟩ i.natAbs,
          by simp [serialize_integer, hi], rfl, ?_⟩
        intro c hc
        rcases List.mem_cons.mp hc with h | h
        · rw [h]; exact ⟨by decide, by decide⟩
        rcases List.mem_cons.mp h with h | h
        · rw [h]; exact ⟨by decide, by decide⟩
        · rcases bin_chars_mem _ _ c h with h | h | h <;>
            (rw [h]; exact ⟨by decide, by decide⟩)

/- ------------------------------------------------------------------
   Array-format resolution (claim C3)
   ------------------------------------------------------------------ -/

theorem est_loop_ne_aot (sp : spec) :
    ∀ (a : List Value) (len : Nat) (f : array_format),
      est_loop sp len a = Except.ok f → f ≠ array_format.array_of_tables := by
  intro a
  induction a with
  | nil =>
    intro len f h
    simp only [est_loop] at h
    injection h with h2
    rw [← h2]
    decide
  | cons e rest ih =>
    intro len f h
    cases e <;> simp only [est_loop] at h <;>
      (all_goals try split at h) <;>
      (all_goals try split at h) <;>
      (all_goals try split at h) <;>
      (all_goals try split at h) <;>
      (all_goals try split at h) <;>
      (all_goals first
        | exact ih _ _ h
        | exact Except.noConfusion h
        | (injection h with h2; rw [← h2]; decide))

/-- C3: with a default-form hint, the array renderer resolves to the
array-of-tables form exactly when the key path is non-empty, the array is
non-empty, the array's own comment container is empty, and every element
is a table; and the inline-context override emits array-of-tables exactly
when the resolved form is array-of-tables and the inline-forced flag is
clear — under the flag an array-of-tables form is downgraded to MULTILINE
(and in every other case the resolved form is kept as-is). -/
theorem C3_array_format_resolution (sp : spec) (keys : List String)
    (a : List Value) (fmt : array_format_info) (com : List String)
    (hf : fmt.fmt = array_format.default_format) :
    ((resolve_array_format sp keys.isEmpty a fmt com =
        Except.ok array_format.array_of_tables) ↔
      (keys ≠ [] ∧ a ≠ [] ∧ com = [] ∧ ∀ e ∈ a, e.is_table = true)) ∧
    (∀ (force : Bool) (f : array_format),
      (effective_array_format force f = array_format.array_of_tables ↔
        (f = array_format.array_of_tables ∧ force = false)) ∧
      (force = true → f = array_format.array_of_tables →
        effective_array_format force f = array_format.multiline) ∧
      (¬(force = true ∧ f = array_format.array_of_tables) →
        effective_array_format force f = f)) := by
  constructor
  · unfold resolve_array_format
    rw [if_pos hf]
    have hbool : ((!keys.isEmpty) = true ∧ (!a.isEmpty) = true ∧
        com.isEmpty = true ∧ a.all Value.is_table = true) ↔
        (keys ≠ [] ∧ a ≠ [] ∧ com = [] ∧ ∀ e ∈ a, e.is_table = true) := by
      simp [List.isEmpty_iff, List.isEmpty_eq_false, List.all_eq_true]
    by_cases hcond : (!keys.isEmpty) = true ∧ (!a.isEmpty) = true ∧
        com.isEmpty = true ∧ a.all Value.is_table = true
    · rw [if_pos hcond]
      exact ⟨fun _ => hbool.mp hcond, fun _ => rfl⟩
    · rw [if_neg hcond]
      exact ⟨fun h => absurd rfl (est_loop_ne_aot sp a 0 _ h),
        fun hr => absurd (hbool.mpr hr) hcond⟩
  · intro force f
    cases force <;> cases f <;> simp [effective_array_format]

/- ------------------------------------------------------------------
   Claim C5: no triple quote in a multi-line basic string body
   ------------------------------------------------------------------ -/

/-- C5: for every specification level and every input string, the body
produced by the multi-line basic-string escaper contains no occurrence of
three consecutive double quotes; moreover the replacement loop has reached
its fixpoint (no occurrence is left to find) and the iteration bound is
exact, i.e. running the loop with any extra fuel returns the same string
(the loop terminates after at most `count_3_quotes` iterations). -/
theorem C5_ml_basic_no_triple (sp : spec) (s : List Char) :
    ¬ ([quoteC, quoteC, quoteC] <:+: escape_ml_basic_string sp s) ∧
    find_3_quotes (escape_ml_basic_string sp s) = Option.none ∧
    ∀ extra,
      break_3_quotes (count_3_quotes (s.flatMap (escape_ml_char sp)) + extra)
        (s.flatMap (escape_ml_char sp)) = escape_ml_basic_string sp s := by
  have hnone : find_3_quotes (escape_ml_basic_string sp s) = Option.none := by
    show find_3_quotes
      (break_3_quotes (count_3_quotes (s.flatMap (escape_ml_char sp)))
        (s.flatMap (escape_ml_char sp))) = Option.none
    exact break_3_quotes_none _ _ (Nat.le_refl _)
  refine ⟨?_, hnone, ?_⟩
  · intro hinf
    have hpos := count_3_quotes_pos_of_infix hinf
    have hzero := (find_3_quotes_eq_none_iff _).mp hnone
    omega
  · intro extra
    show break_3_quotes _ _ =
      break_3_quotes (count_3_quotes (s.flatMap (escape_ml_char sp)))
        (s.flatMap (escape_ml_char sp))
    exact break_3_quotes_add _ extra _ (Nat.le_refl _)

/- ------------------------------------------------------------------
   Claims C7 and C10: the floating encoder
   ------------------------------------------------------------------ -/

/-- C7 (amended): for every finite floating value rendered in the default
form, if the formatter output lacks a point and an exponent marker then
`.0` is appended, so the output always contains `.`, `e` or `E`.  (As
stated, the claim extends this to NaN and infinity; `C7_counterexample`
shows that the NaN output `nan` contains none of these, so the claim holds
only for finite values.) -/
theorem C7_float_default_point (f : float_repr) (fmt : floating_format_info)
    (sp : spec) (hn : f.is_nan = false) (hi : f.is_inf = false)
    (hf : fmt.fmt = floating_format.defaultfloat) :
    '.' ∈ serialize_floating f fmt sp ∨ 'e' ∈ serialize_floating f fmt sp ∨
      'E' ∈ serialize_floating f fmt sp := by
  unfold serialize_floating
  simp only [hn, hi, Bool.false_eq_true, if_false, hf]
  by_cases hc : '.' ∈ f.render_default fmt.prec ∨
      'e' ∈ f.render_default fmt.prec ∨ 'E' ∈ f.render_default fmt.prec
  · rw [if_pos hc]
    rcases hc with h | h | h
    · left; exact List.mem_append_left _ h
    · right; left; exact List.mem_append_left _ h
    · right; right; exact List.mem_append_left _ h
  · rw [if_neg hc]
    left
    refine List.mem_append_left _ ?_
    exact List.mem_append_right _ (by simp)

/-- C7 counterexample: a NaN value with default form renders as `nan`,
which contains neither a decimal point nor an exponent marker; the claim's
parenthetical extension to NaN and infinity outputs is therefore false on
the code. -/
theorem C7_counterexample :
    serialize_floating nan_float { fmt := floating_format.defaultfloat }
        default_spec = "nan".toList ∧
    ¬('.' ∈ "nan".toList ∨ 'e' ∈ "nan".toList ∨ 'E' ∈ "nan".toList) :=
  ⟨rfl, by decide⟩

/-- C10: with the numeric-suffix extension enabled and a non-empty suffix
in the hint, a NaN floating value renders as `nan` (with a leading minus
when the sign bit is set) followed by an underscore and the suffix, and an
infinity renders likewise as `inf` — the same suffix treatment as for
finite decimal-form values. -/
theorem C10_nan_inf_suffix (f : float_repr) (fmt : floating_format_info)
    (sp : spec) (hext : sp.ext_num_suffix = true) (hsuf : fmt.suffix ≠ "") :
    (f.is_nan = true →
      serialize_floating f fmt sp =
        (if f.sign_bit then ['-'] else []) ++ "nan".toList ++
          '_' :: fmt.suffix.toList) ∧
    (f.is_nan = false → f.is_inf = true →
      serialize_floating f fmt sp =
        (if f.sign_bit then ['-'] else []) ++ "inf".toList ++
          '_' :: fmt.suffix.toList) := by
  constructor
  · intro hn
    simp [serialize_floating, hn, hext, hsuf]
  · intro hn hi
    simp [serialize_floating, hn, hi, hext, hsuf]

/- ------------------------------------------------------------------
   State preservation of the serializer routines
   ------------------------------------------------------------------ -/

theorem force_or_trans {a b c : Bool} (h1 : b = a ∨ b = false)
    (h2 : c = b ∨ c = false) : c = a ∨ c = false := by
  rcases h1 with rfl | rfl
  · exact h2
  · rcases h2 with rfl | rfl
    · right; rfl
    · right; rfl

theorem pres_arr_oneline_loop (recur : Recur)
    (H : ∀ c st v, preserves_full st (recur c st v)) :
    ∀ (a : List Value) (st : SState),
      preserves_ki st (arr_oneline_loop recur st a) := by
  intro a
  induction a with
  | nil =>
    intro st o st' h
    simp only [arr_oneline_loop, Except.ok.injEq, Prod.mk.injEq] at h
    obtain ⟨-, rfl⟩ := h
    exact ⟨rfl, rfl⟩
  | cons e rest ih =>
    intro st o st' h
    simp only [arr_oneline_loop] at h
    split at h
    · exact Except.noConfusion h
    next s st1 heq =>
      split at h
      · exact Except.noConfusion h
      next s2 st2 heq2 =>
        simp only [Except.ok.injEq, Prod.mk.injEq] at h
        obtain ⟨-, rfl⟩ := h
        obtain ⟨hk1, hi1, -⟩ :=
          H true { st with force_inline := true } e s st1 heq
        obtain ⟨hk2, hi2⟩ := ih st1 s2 st2 heq2
        exact ⟨by rw [hk2, hk1], by rw [hi2, hi1]⟩

theorem pres_arr_ml_loop (recur : Recur)
    (H : ∀ c st v, preserves_full st (recur c st v)) (fmt : array_format_info) :
    ∀ (a : List Value) (st : SState),
      preserves_ki st (arr_ml_loop recur fmt st a) := by
  intro a
  induction a with
  | nil =>
    intro st o st' h
    simp only [arr_ml_loop, Except.ok.injEq, Prod.mk.injEq] at h
    obtain ⟨-, rfl⟩ := h
    exact ⟨rfl, rfl⟩
  | cons e rest ih =>
    intro st o st' h
    simp only [arr_ml_loop] at h
    split at h
    · exact Except.noConfusion h
    next s st1 heq =>
      split at h
      · exact Except.noConfusion h
      next s2 st2 heq2 =>
        simp only [Except.ok.injEq, Prod.mk.injEq] at h
        obtain ⟨-, rfl⟩ := h
        obtain ⟨hk1, hi1, -⟩ :=
          H true { st with force_inline := true } e s st1 heq
        obtain ⟨hk2, hi2⟩ := ih st1 s2 st2 heq2
        exact ⟨by rw [hk2, hk1], by rw [hi2, hi1]⟩

theorem pres_inline_table_loop (recur : Recur)
    (H : ∀ c st v, preserves_full st (recur c st v)) (sp : spec) :
    ∀ (t : List (String × Value)) (st : SState),
      preserves_ki st (inline_table_loop recur sp st t) := by
  intro t
  induction t with
  | nil =>
    intro st o st' h
    simp only [inline_table_loop, Except.ok.injEq, Prod.mk.injEq] at h
    obtain ⟨-, rfl⟩ := h
    exact ⟨rfl, rfl⟩
  | cons kv rest ih =>
    obtain ⟨k, v⟩ := kv
    intro st o st' h
    simp only [inline_table_loop] at h
    split at h
    · exact Except.noConfusion h
    next s st1 heq =>
      split at h
      · exact Except.noConfusion h
      next s2 st2 heq2 =>
        simp only [Except.ok.injEq, Prod.mk.injEq] at h
        obtain ⟨-, rfl⟩ := h
        obtain ⟨hk1, hi1, -⟩ :=
          H true { st with force_inline := true } v s st1 heq
        obtain ⟨hk2, hi2⟩ := ih st1 s2 st2 heq2
        exact ⟨by rw [hk2, hk1], by rw [hi2, hi1]⟩

theorem pres_ml_inline_table_loop (recur : Recur)
    (H : ∀ c st v, preserves_full st (recur c st v)) (fmt : table_format_info) :
    ∀ (t : List (String × Value)) (st : SState),
      preserves_ki st (ml_inline_table_loop recur fmt st t) := by
  intro t
  induction t with
  | nil =>
    intro st o st' h
    simp only [ml_inline_table_loop, Except.ok.injEq, Prod.mk.injEq] at h
    obtain ⟨-, rfl⟩ := h
    exact ⟨rfl, rfl⟩
  | cons kv rest ih =>
    obtain ⟨k, v⟩ := kv
    intro st o st' h
    simp only [ml_inline_table_loop] at h
    split at h
    · exact Except.noConfusion h
    next s st1 heq =>
      split at h
      · exact Except.noConfusion h
      next s2 st2 heq2 =>
        simp only [Except.ok.injEq, Prod.mk.injEq] at h
        obtain ⟨-, rfl⟩ := h
        obtain ⟨hk1, hi1, -⟩ :=
          H true { st with force_inline := true } v s st1 heq
        obtain ⟨hk2, hi2⟩ := ih st1 s2 st2 heq2
        exact ⟨by rw [hk2, hk1], by rw [hi2, hi1]⟩

theorem pres_format_inline_table (recur : Recur)
    (H : ∀ c st v, preserves_full st (recur c st v)) (sp : spec)
    (t : List (String × Value)) (fmt : table_format_info) (st : SState) :
    preserves_full st (format_inline_table recur sp st t fmt) := by
  intro o st' h
  simp only [format_inline_table] at h
  split at h
  · exact Except.noConfusion h
  next body st1 heq =>
    simp only [Except.ok.injEq, Prod.mk.injEq] at h
    obtain ⟨-, rfl⟩ := h
    obtain ⟨hk1, hi1⟩ := pres_inline_table_loop recur H sp t st body st1 heq
    exact ⟨hk1, hi1, Or.inr rfl⟩

theorem pres_format_ml_inline_table (recur : Recur)
    (H : ∀ c st v, preserves_full st (recur c st v))
    (t : List (String × Value)) (fmt : table_format_info) (st : SState) :
    preserves_full st (format_ml_inline_table recur st t fmt) := by
  intro o st' h
  simp only [format_ml_inline_table] at h
  split at h
  · exact Except.noConfusion h
  next body st1 heq =>
    simp only [Except.ok.injEq, Prod.mk.injEq] at h
    obtain ⟨-, rfl⟩ := h
    obtain ⟨hk1, hi1⟩ := pres_ml_inline_table_loop recur H fmt t
      { st with current_indent := st.current_indent + fmt.body_indent }
      body st1 heq
    refine ⟨hk1, ?_, Or.inr rfl⟩
    show st1.current_indent - fmt.body_indent = st.current_indent
    rw [hi1]
    show st.current_indent + fmt.body_indent - fmt.body_indent = _
    omega

theorem pres_format_dotted_table (recur : Recur)
    (H : ∀ c st v, preserves_full st (recur c st v)) (sp : spec) :
    ∀ (fuel : Nat) (t : List (String × Value)) (fmt : table_format_info)
      (dkeys : List String) (st : SState),
      preserves_full st (format_dotted_table recur sp fuel st t fmt dkeys) := by
  intro fuel
  induction fuel with
  | zero =>
    intro t fmt dkeys st o st' h
    exact Except.noConfusion h
  | succ fuel ih =>
    intro t fmt dkeys st o st' h
    cases t with
    | nil =>
      simp only [format_dotted_table, Except.ok.injEq, Prod.mk.injEq] at h
      obtain ⟨-, rfl⟩ := h
      exact ⟨rfl, rfl, Or.inl rfl⟩
    | cons kv rest =>
      obtain ⟨k, v⟩ := kv
      simp only [format_dotted_table] at h
      split at h
      · exact Except.noConfusion h
      next s st1 heq =>
        split at h
        · exact Except.noConfusion h
        next s2 st2 heq2 =>
          simp only [Except.ok.injEq, Prod.mk.injEq] at h
          obtain ⟨-, rfl⟩ := h
          have hstep : st1.keys = st.keys ∧
              st1.current_indent = st.current_indent ∧
              (st1.force_inline = st.force_inline ∨ st1.force_inline = false) := by
            split at heq
            · split at heq
              · exact ih _ _ _ _ _ _ heq
              · split at heq
                · exact Except.noConfusion heq
                next s3 st3 heq3 =>
                  simp only [Except.ok.injEq, Prod.mk.injEq] at heq
                  obtain ⟨-, rfl⟩ := heq
                  obtain ⟨hk3, hi3, -⟩ :=
                    H true { st with force_inline := true } _ s3 st3 heq3
                  exact ⟨hk3, hi3, Or.inr rfl⟩
            · split at heq
              · exact Except.noConfusion heq
              next s3 st3 heq3 =>
                simp only [Except.ok.injEq, Prod.mk.injEq] at heq
                obtain ⟨-, rfl⟩ := heq
                obtain ⟨hk3, hi3, -⟩ :=
                  H true { st with force_inline := true } _ s3 st3 heq3
                exact ⟨hk3, hi3, Or.inr rfl⟩
          obtain ⟨hk1, hi1, hf1⟩ := hstep
          obtain ⟨hk2, hi2, hf2⟩ := ih _ _ _ _ _ _ heq2
          exact ⟨by rw [hk2, hk1], by rw [hi2, hi1], force_or_trans hf1 hf2⟩

theorem pres_ml_table_pass1 (recur : Recur)
    (H : ∀ c st v, preserves_full st (recur c st v)) (ctx : Bool) (sp : spec)
    (fmt : table_format_info) :
    ∀ (t : List (String × Value)) (st : SState),
      preserves_full st (ml_table_pass1 recur ctx sp fmt st t) := by
  intro t
  induction t with
  | nil =>
    intro st o st' h
    simp only [ml_table_pass1, Except.ok.injEq, Prod.mk.injEq] at h
    obtain ⟨-, rfl⟩ := h
    exact ⟨rfl, rfl, Or.inl rfl⟩
  | cons kv rest ih =>
    obtain ⟨k, v⟩ := kv
    intro st o st' h
    simp only [ml_table_pass1] at h
    split at h
    · exact ih st o st' h
    · split at h
      · exact Except.noConfusion h
      next s st1 heq =>
        split at h
        · exact Except.noConfusion h
        next s2 st2 heq2 =>
          simp only [Except.ok.injEq, Prod.mk.injEq] at h
          obtain ⟨-, rfl⟩ := h
          obtain ⟨hk1, hi1, hf1⟩ :=
            H ctx { st with keys := st.keys ++ [k] } v s st1 heq
          obtain ⟨hk2, hi2, hf2⟩ :=
            ih { st1 with keys := st1.keys.dropLast } s2 st2 heq2
          refine ⟨?_, by rw [hi2, hi1], force_or_trans hf1 hf2⟩
          rw [hk2]
          show st1.keys.dropLast = st.keys
          rw [hk1]
          show (st.keys ++ [k]).dropLast = st.keys
          exact List.dropLast_concat

theorem pres_ml_table_pass2 (recur : Recur)
    (H : ∀ c st v, preserves_full st (recur c st v)) (ctx : Bool) :
    ∀ (t : List (String × Value)) (st : SState),
      preserves_full st (ml_table_pass2 recur ctx st t) := by
  intro t
  induction t with
  | nil =>
    intro st o st' h
    simp only [ml_table_pass2, Except.ok.injEq, Prod.mk.injEq] at h
    obtain ⟨-, rfl⟩ := h
    exact ⟨rfl, rfl, Or.inl rfl⟩
  | cons kv rest ih =>
    obtain ⟨k, v⟩ := kv
    intro st o st' h
    simp only [ml_table_pass2] at h
    split at h
    · exact ih st o st' h
    · split at h
      · exact Except.noConfusion h
      next s st1 heq =>
        split at h
        · exact Except.noConfusion h
        next s2 st2 heq2 =>
          simp only [Except.ok.injEq, Prod.mk.injEq] at h
          obtain ⟨-, rfl⟩ := h
          obtain ⟨hk1, hi1, hf1⟩ :=
            H ctx { st with keys := st.keys ++ [k] } v s st1 heq
          obtain ⟨hk2, hi2, hf2⟩ :=
            ih { st1 with keys := st1.keys.dropLast } s2 st2 heq2
          refine ⟨?_, by rw [hi2, hi1], force_or_trans hf1 hf2⟩
          rw [hk2]
          show st1.keys.dropLast = st.keys
          rw [hk1]
          show (st.keys ++ [k]).dropLast = st.keys
          exact List.dropLast_concat

theorem pres_format_ml_table (recur : Recur)
    (H : ∀ c st v, preserves_full st (recur c st v)) (ctx : Bool) (sp : spec)
    (t : List (String × Value)) (fmt : table_format_info) (st : SState) :
    preserves_full st (format_ml_table recur ctx sp st t fmt) := by
  intro o st' h
  simp only [format_ml_table] at h
  split at h
  · exact Except.noConfusion h
  next s1 st1 heq =>
    split at h
    · exact Except.noConfusion h
    next s2 st2 heq2 =>
      simp only [Except.ok.injEq, Prod.mk.injEq] at h
      obtain ⟨-, rfl⟩ := h
      obtain ⟨hk1, hi1, hf1⟩ := pres_ml_table_pass1 recur H ctx sp fmt t
        { st with current_indent := st.current_indent + fmt.body_indent }
        s1 st1 heq
      obtain ⟨hk2, hi2, hf2⟩ := pres_ml_table_pass2 recur H ctx t
        { st1 with current_indent := st1.current_indent - fmt.body_indent }
        s2 st2 heq2
      refine ⟨by rw [hk2, hk1], ?_, force_or_trans hf1 hf2⟩
      rw [hi2]
      show st1.current_indent - fmt.body_indent = st.current_indent
      rw [hi1]
      show st.current_indent + fmt.body_indent - fmt.body_indent = _
      omega

theorem pres_aot_loop (recur : Recur)
    (H : ∀ c st v, preserves_full st (recur c st v)) (ctx : Bool) (sp : spec) :
    ∀ (a : List Value) (st : SState),
      preserves_full st (aot_loop recur ctx sp st a) := by
  intro a
  induction a with
  | nil =>
    intro st o st' h
    simp only [aot_loop, Except.ok.injEq, Prod.mk.injEq] at h
    obtain ⟨-, rfl⟩ := h
    exact ⟨rfl, rfl, Or.inl rfl⟩
  | cons e rest ih =>
    intro st o st' h
    simp only [aot_loop] at h
    split at h
    next te tf com =>
      split at h
      · exact Except.noConfusion h
      next body st1 heq =>
        split at h
        · exact Except.noConfusion h
        next s2 st2 heq2 =>
          simp only [Except.ok.injEq, Prod.mk.injEq] at h
          obtain ⟨-, rfl⟩ := h
          obtain ⟨hk1, hi1, hf1⟩ :=
            pres_format_ml_table recur H ctx sp te tf st body st1 heq
          obtain ⟨hk2, hi2, hf2⟩ := ih st1 s2 st2 heq2
          exact ⟨by rw [hk2, hk1], by rw [hi2, hi1], force_or_trans hf1 hf2⟩
    · exact Except.noConfusion h

theorem pres_serialize_array (recur : Recur)
    (H : ∀ c st v, preserves_full st (recur c st v)) (sp : spec) (ctx : Bool)
    (a : List Value) (fmt : array_format_info) (com : List String)
    (st : SState) :
    preserves_full st (serialize_array recur sp ctx st a fmt com) := by
  intro o st' h
  simp only [serialize_array] at h
  split at h
  · exact Except.noConfusion h
  next f0 heq0 =>
    split at h
    · split at h
      · exact Except.noConfusion h
      · exact pres_aot_loop recur H ctx sp a st o st' h
    · split at h
      · split at h
        · exact Except.noConfusion h
        next body st1 heq =>
          simp only [Except.ok.injEq, Prod.mk.injEq] at h
          obtain ⟨-, rfl⟩ := h
          obtain ⟨hk1, hi1⟩ := pres_arr_oneline_loop recur H a st body st1 heq
          exact ⟨hk1, hi1, Or.inr rfl⟩
      · split at h
        · exact Except.noConfusion h
        next body st1 heq =>
          simp only [Except.ok.injEq, Prod.mk.injEq] at h
          obtain ⟨-, rfl⟩ := h
          obtain ⟨hk1, hi1⟩ := pres_arr_ml_loop recur H fmt a st body st1 heq
          exact ⟨hk1, hi1, Or.inr rfl⟩

theorem pres_implicit_loop (recur : Recur)
    (H : ∀ c st v, preserves_full st (recur c st v)) (ctx : Bool) :
    ∀ (t : List (String × Value)) (st : SState),
      preserves_full st (implicit_loop recur ctx st t) := by
  intro t
  induction t with
  | nil =>
    intro st o st' h
    simp only [implicit_loop, Except.ok.injEq, Prod.mk.injEq] at h
    obtain ⟨-, rfl⟩ := h
    exact ⟨rfl, rfl, Or.inl rfl⟩
  | cons kv rest ih =>
    obtain ⟨k, v⟩ := kv
    intro st o st' h
    simp only [implicit_loop] at h
    split at h
    · exact Except.noConfusion h
    · split at h
      · exact Except.noConfusion h
      · split at h
        · exact Except.noConfusion h
        next s st1 heq =>
          split at h
          · exact Except.noConfusion h
          next s2 st2 heq2 =>
            simp only [Except.ok.injEq, Prod.mk.injEq] at h
            obtain ⟨-, rfl⟩ := h
            obtain ⟨hk1, hi1, hf1⟩ :=
              H ctx { st with keys := st.keys ++ [k] } v s st1 heq
            obtain ⟨hk2, hi2, hf2⟩ :=
              ih { st1 with keys := st1.keys.dropLast } s2 st2 heq2
            refine ⟨?_, by rw [hi2, hi1], force_or_trans hf1 hf2⟩
            rw [hk2]
            show st1.keys.dropLast = st.keys
            rw [hk1]
            show (st.keys ++ [k]).dropLast = st.keys
            exact List.dropLast_concat

theorem pres_serialize_table (recur : Recur)
    (H : ∀ c st v, preserves_full st (recur c st v)) (sp : spec) (fuel : Nat)
    (ctx : Bool) (t : List (String × Value)) (fmt : table_format_info)
    (com : List String) (st : SState) :
    preserves_full st (serialize_table recur sp fuel ctx st t fmt com) := by
  intro o st' h
  simp only [serialize_table] at h
  split at h
  · split at h
    · exact pres_format_ml_inline_table recur H t fmt st o st' h
    · exact pres_format_inline_table recur H sp t fmt st o st' h
  · split at h
    · split at h
      · exact Except.noConfusion h
      next body st1 heq =>
        simp only [Except.ok.injEq, Prod.mk.injEq] at h
        obtain ⟨-, rfl⟩ := h
        exact pres_format_ml_table recur H ctx sp t fmt st body st1 heq
    · exact pres_format_inline_table recur H sp t fmt st o st' h
    · exact pres_format_ml_inline_table recur H t fmt st o st' h
    · split at h
      · exact Except.noConfusion h
      · exact pres_format_dotted_table recur H sp fuel t fmt _ st o st' h
    · exact pres_implicit_loop recur H ctx t st o st' h

theorem pres_serialize_value (sp : spec) :
    ∀ (fuel : Nat) (ctx : Bool) (st : SState) (v : Value),
      preserves_full st (serialize_value sp fuel ctx st v) := by
  intro fuel
  induction fuel with
  | zero =>
    intro ctx st v o st' h
    exact Except.noConfusion h
  | succ fuel ih =>
    intro ctx st v o st' h
    simp only [serialize_value] at h
    split at h
    · exact Except.noConfusion h
    · split at h
      · simp only [Except.ok.injEq, Prod.mk.injEq] at h
        obtain ⟨-, rfl⟩ := h
        exact ⟨rfl, rfl, Or.inl rfl⟩
      · split at h
        · exact Except.noConfusion h
        next s heq =>
          simp only [Except.ok.injEq, Prod.mk.injEq] at h
          obtain ⟨-, rfl⟩ := h
          exact ⟨rfl, rfl, Or.inl rfl⟩
      · simp only [Except.ok.injEq, Prod.mk.injEq] at h
        obtain ⟨-, rfl⟩ := h
        exact ⟨rfl, rfl, Or.inl rfl⟩
      · split at h
        · exact Except.noConfusion h
        next s heq =>
          simp only [Except.ok.injEq, Prod.mk.injEq] at h
          obtain ⟨-, rfl⟩ := h
          exact ⟨rfl, rfl, Or.inl rfl⟩
      · simp only [Except.ok.injEq, Prod.mk.injEq] at h
        obtain ⟨-, rfl⟩ := h
        exact ⟨rfl, rfl, Or.inl rfl⟩
      · simp only [Except.ok.injEq, Prod.mk.injEq] at h
        obtain ⟨-, rfl⟩ := h
        exact ⟨rfl, rfl, Or.inl rfl⟩
      · simp only [Except.ok.injEq, Prod.mk.injEq] at h
        obtain ⟨-, rfl⟩ := h
        exact ⟨rfl, rfl, Or.inl rfl⟩
      · simp only [Except.ok.injEq, Prod.mk.injEq] at h
        obtain ⟨-, rfl⟩ := h
        exact ⟨rfl, rfl, Or.inl rfl⟩
      · exact pres_serialize_array (serialize_value sp fuel) ih sp ctx _ _ _ st o st' h
      · split at h
        · exact Except.noConfusion h
        next s st1 heq =>
          simp only [Except.ok.injEq, Prod.mk.injEq] at h
          obtain ⟨-, rfl⟩ := h
          exact pres_serialize_table (serialize_value sp fuel) ih sp fuel ctx
            _ _ _ st s st1 heq
      · split at h
        · simp only [Except.ok.injEq, Prod.mk.injEq] at h
          obtain ⟨-, rfl⟩ := h
          exact ⟨rfl, rfl, Or.inl rfl⟩
        · exact Except.noConfusion h

/- ------------------------------------------------------------------
   Unreachability of the ghost inline-mismatch error (claim C2)
   ------------------------------------------------------------------ -/

theorem ng_serialize_integer (i : Int) (fmt : integer_format_info) (sp : spec) :
    serialize_integer i fmt sp ≠ Except.error serr.ghost_inline_mismatch := by
  intro h
  simp only [serialize_integer] at h
  repeat' split at h
  all_goals
    first
    | exact Except.noConfusion h
    | (injection h with h2; exact serr.noConfusion h2)

theorem ng_serialize_string (s : List Char) (fmt : string_format_info) (sp : spec) :
    serialize_string s fmt sp ≠ Except.error serr.ghost_inline_mismatch := by
  intro h
  simp only [serialize_string] at h
  repeat' split at h
  all_goals
    first
    | exact Except.noConfusion h
    | (injection h with h2; exact serr.noConfusion h2)

theorem ng_est_loop (sp : spec) :
    ∀ (a : List Value) (len : Nat),
      est_loop sp len a ≠ Except.error serr.ghost_inline_mismatch := by
  intro a
  induction a with
  | nil =>
    intro len h
    simp only [est_loop] at h
    exact Except.noConfusion h
  | cons e rest ih =>
    intro len h
    simp only [est_loop] at h
    repeat' split at h
    all_goals
      first
      | exact Except.noConfusion h
      | exact ih _ h
      | (injection h with h2; subst h2;
         exact ng_serialize_integer _ _ _ (by assumption))
      | (injection h with h2; subst h2;
         exact ng_serialize_string _ _ _ (by assumption))

theorem ng_resolve_array_format (sp : spec) (keys_empty : Bool) (a : List Value)
    (fmt : array_format_info) (com : List String) :
    resolve_array_format sp keys_empty a fmt com ≠
      Except.error serr.ghost_inline_mismatch := by
  intro h
  simp only [resolve_array_format] at h
  repeat' split at h
  all_goals
    first
    | exact Except.noConfusion h
    | exact ng_est_loop sp a 0 h

theorem ng_implicit_aot_check (vfmt : Option table_format_info) :
    ∀ (elems : List Value),
      implicit_aot_check vfmt elems ≠ Except.error serr.ghost_inline_mismatch := by
  intro elems
  induction elems with
  | nil =>
    intro h
    simp only [implicit_aot_check] at h
    exact Except.noConfusion h
  | cons e rest ih =>
    intro h
    simp only [implicit_aot_check] at h
    repeat' split at h
    all_goals
      first
      | exact Except.noConfusion h
      | exact ih h
      | (injection h with h2; exact serr.noConfusion h2)

/-- If the effective array form is array-of-tables the inline-forced flag
was down (the override would otherwise have produced multiline). -/
theorem effective_aot {force : Bool} {f0 : array_format}
    (h : effective_array_format force f0 = array_format.array_of_tables) :
    force = false := by
  unfold effective_array_format at h
  split at h
  · exact array_format.noConfusion h
  next hcond =>
    cases force
    · rfl
    · exact absurd ⟨rfl, h⟩ hcond

theorem ng_arr_oneline_loop (recur : Recur)
    (Hng : ∀ c st v, st.force_inline = c →
      no_ghost (recur c st v)) :
    ∀ (a : List Value) (st : SState),
      no_ghost (arr_oneline_loop recur st a) := by
  intro a
  induction a with
  | nil =>
    intro st h
    simp only [arr_oneline_loop] at h
    exact Except.noConfusion h
  | cons e rest ih =>
    intro st h
    simp only [arr_oneline_loop] at h
    split at h
    next err heq =>
      injection h with h2
      subst h2
      exact Hng true { st with force_inline := true } e rfl heq
    next s st1 heq =>
      split at h
      next err heq2 =>
        injection h with h2
        subst h2
        exact ih st1 heq2
      next => exact Except.noConfusion h

theorem ng_arr_ml_loop (recur : Recur)
    (Hng : ∀ c st v, st.force_inline = c →
      no_ghost (recur c st v)) (fmt : array_format_info) :
    ∀ (a : List Value) (st : SState),
      no_ghost (arr_ml_loop recur fmt st a) := by
  intro a
  induction a with
  | nil =>
    intro st h
    simp only [arr_ml_loop] at h
    exact Except.noConfusion h
  | cons e rest ih =>
    intro st h
    simp only [arr_ml_loop] at h
    split at h
    next err heq =>
      injection h with h2
      subst h2
      exact Hng true { st with force_inline := true } e rfl heq
    next s st1 heq =>
      split at h
      next err heq2 =>
        injection h with h2
        subst h2
        exact ih st1 heq2
      next => exact Except.noConfusion h

theorem ng_inline_table_loop (recur : Recur)
    (Hng : ∀ c st v, st.force_inline = c →
      no_ghost (recur c st v)) (sp : spec) :
    ∀ (t : List (String × Value)) (st : SState),
      no_ghost (inline_table_loop recur sp st t) := by
  intro t
  induction t with
  | nil =>
    intro st h
    simp only [inline_table_loop] at h
    exact Except.noConfusion h
  | cons kv rest ih =>
    obtain ⟨k, v⟩ := kv
    intro st h
    simp only [inline_table_loop] at h
    split at h
    next err heq =>
      injection h with h2
      subst h2
      exact Hng true { st with force_inline := true } v rfl heq
    next s st1 heq =>
      split at h
      next err heq2 =>
        injection h with h2
        subst h2
        exact ih st1 heq2
      next => exact Except.noConfusion h

theorem ng_ml_inline_table_loop (recur : Recur)
    (Hng : ∀ c st v, st.force_inline = c →
      no_ghost (recur c st v)) (fmt : table_format_info) :
    ∀ (t : List (String × Value)) (st : SState),
      no_ghost (ml_inline_table_loop recur fmt st t) := by
  intro t
  induction t with
  | nil =>
    intro st h
    simp only [ml_inline_table_loop] at h
    exact Except.noConfusion h
  | cons kv rest ih =>
    obtain ⟨k, v⟩ := kv
    intro st h
    simp only [ml_inline_table_loop] at h
    split at h
    next err heq =>
      injection h with h2
      subst h2
      exact Hng true { st with force_inline := true } v rfl heq
    next s st1 heq =>
      split at h
      next err heq2 =>
        injection h with h2
        subst h2
        exact ih st1 heq2
      next => exact Except.noConfusion h

theorem ng_format_inline_table (recur : Recur)
    (Hng : ∀ c st v, st.force_inline = c →
      no_ghost (recur c st v)) (sp : spec)
    (st : SState) (t : List (String × Value)) (fmt : table_format_info) :
    no_ghost (format_inline_table recur sp st t fmt) := by
  intro h
  simp only [format_inline_table] at h
  split at h
  next err heq =>
    injection h with h2
    subst h2
    exact ng_inline_table_loop recur Hng sp t st heq
  next => exact Except.noConfusion h

theorem ng_format_ml_inline_table (recur : Recur)
    (Hng : ∀ c st v, st.force_inline = c →
      no_ghost (recur c st v))
    (st : SState) (t : List (String × Value)) (fmt : table_format_info) :
    no_ghost (format_ml_inline_table recur st t fmt) := by
  intro h
  simp only [format_ml_inline_table] at h
  split at h
  next err heq =>
    injection h with h2
    subst h2
    exact ng_ml_inline_table_loop recur Hng fmt t _ heq
  next => exact Except.noConfusion h

theorem ng_format_dotted_table (recur : Recur)
    (Hng : ∀ c st v, st.force_inline = c →
      no_ghost (recur c st v)) (sp : spec) :
    ∀ (fuel : Nat) (t : List (String × Value)) (fmt : table_format_info)
      (dkeys : List String) (st : SState),
      no_ghost (format_dotted_table recur sp fuel st t fmt dkeys) := by
  intro fuel
  induction fuel with
  | zero =>
    intro t fmt dkeys st h
    simp only [format_dotted_table] at h
    injection h with h2
    exact serr.noConfusion h2
  | succ fuel ih =>
    intro t fmt dkeys st h
    cases t with
    | nil =>
      simp only [format_dotted_table] at h
      exact Except.noConfusion h
    | cons kv rest =>
      obtain ⟨k, v⟩ := kv
      simp only [format_dotted_table] at h
      split at h
      next err heq =>
        injection h with h2
        subst h2
        split at heq
        · split at heq
          · exact ih _ _ _ _ heq
          · split at heq
            next err2 heq2 =>
              injection heq with h3
              subst h3
              exact Hng true { st with force_inline := true } _ rfl heq2
            next => exact Except.noConfusion heq
        · split at heq
          next err2 heq2 =>
            injection heq with h3
            subst h3
            exact Hng true { st with force_inline := true } _ rfl heq2
          next => exact Except.noConfusion heq
      next s st1 heq =>
        split at h
        next err heq2 =>
          injection h with h2
          subst h2
          exact ih _ _ _ _ heq2
        next => exact Except.noConfusion h

theorem ng_ml_table_pass1 (recur : Recur)
    (H : ∀ c st v, preserves_full st (recur c st v))
    (Hng : ∀ c st v, st.force_inline = c →
      no_ghost (recur c st v)) (sp : spec) (fmt : table_format_info) :
    ∀ (t : List (String × Value)) (st : SState),
      st.force_inline = false →
      no_ghost (ml_table_pass1 recur false sp fmt st t) := by
  intro t
  induction t with
  | nil =>
    intro st hst h
    simp only [ml_table_pass1] at h
    exact Except.noConfusion h
  | cons kv rest ih =>
    obtain ⟨k, v⟩ := kv
    intro st hst h
    simp only [ml_table_pass1] at h
    split at h
    · exact ih st hst h
    · split at h
      next err heq =>
        injection h with h2
        subst h2
        exact Hng false { st with keys := st.keys ++ [k] } v hst heq
      next s st1 heq =>
        split at h
        next err heq2 =>
          injection h with h2
          subst h2
          obtain ⟨-, -, hf1⟩ :=
            H false { st with keys := st.keys ++ [k] } v s st1 heq
          have hst1 : st1.force_inline = false := by
            rcases hf1 with hf | hf
            · rw [hf]; exact hst
            · exact hf
          exact ih { st1 with keys := st1.keys.dropLast } hst1 heq2
        next => exact Except.noConfusion h

theorem ng_ml_table_pass2 (recur : Recur)
    (H : ∀ c st v, preserves_full st (recur c st v))
    (Hng : ∀ c st v, st.force_inline = c →
      no_ghost (recur c st v)) :
    ∀ (t : List (String × Value)) (st : SState),
      st.force_inline = false →
      no_ghost (ml_table_pass2 recur false st t) := by
  intro t
  induction t with
  | nil =>
    intro st hst h
    simp only [ml_table_pass2] at h
    exact Except.noConfusion h
  | cons kv rest ih =>
    obtain ⟨k, v⟩ := kv
    intro st hst h
    simp only [ml_table_pass2] at h
    split at h
    · exact ih st hst h
    · split at h
      next err heq =>
        injection h with h2
        subst h2
        exact Hng false { st with keys := st.keys ++ [k] } v hst heq
      next s st1 heq =>
        split at h
        next err heq2 =>
          injection h with h2
          subst h2
          obtain ⟨-, -, hf1⟩ :=
            H false { st with keys := st.keys ++ [k] } v s st1 heq
          have hst1 : st1.force_inline = false := by
            rcases hf1 with hf | hf
            · rw [hf]; exact hst
            · exact hf
          exact ih { st1 with keys := st1.keys.dropLast } hst1 heq2
        next => exact Except.noConfusion h

theorem ng_format_ml_table (recur : Recur)
    (H : ∀ c st v, preserves_full st (recur c st v))
    (Hng : ∀ c st v, st.force_inline = c →
      no_ghost (recur c st v)) (sp : spec)
    (t : List (String × Value)) (fmt : table_format_info) (st : SState)
    (hst : st.force_inline = false) :
    no_ghost (format_ml_table recur false sp st t fmt) := by
  intro h
  simp only [format_ml_table] at h
  split at h
  next err heq =>
    injection h with h2
    subst h2
    exact ng_ml_table_pass1 recur H Hng sp fmt t
      { st with current_indent := st.current_indent + fmt.body_indent } hst heq
  next s1 st1 heq =>
    split at h
    next err heq2 =>
      injection h with h2
      subst h2
      obtain ⟨-, -, hf1⟩ := pres_ml_table_pass1 recur H false sp fmt t
        { st with current_indent := st.current_indent + fmt.body_indent }
        s1 st1 heq
      have hst1 : st1.force_inline = false := by
        rcases hf1 with hf | hf
        · rw [hf]; exact hst
        · exact hf
      exact ng_ml_table_pass2 recur H Hng t
        { st1 with current_indent := st1.current_indent - fmt.body_indent }
        hst1 heq2
    next => exact Except.noConfusion h

theorem ng_aot_loop (recur : Recur)
    (H : ∀ c st v, preserves_full st (recur c st v))
    (Hng : ∀ c st v, st.force_inline = c →
      no_ghost (recur c st v)) (sp : spec) :
    ∀ (a : List Value) (st : SState),
      st.force_inline = false →
      no_ghost (aot_loop recur false sp st a) := by
  intro a
  induction a with
  | nil =>
    intro st hst h
    simp only [aot_loop] at h
    exact Except.noConfusion h
  | cons e rest ih =>
    intro st hst h
    simp only [aot_loop] at h
    split at h
    next te tf com =>
      split at h
      next err heq =>
        injection h with h2
        subst h2
        exact ng_format_ml_table recur H Hng sp te tf st hst heq
      next body st1 heq =>
        split at h
        next err heq2 =>
          injection h with h2
          subst h2
          obtain ⟨-, -, hf1⟩ :=
            pres_format_ml_table recur H false sp te tf st body st1 heq
          have hst1 : st1.force_inline = false := by
            rcases hf1 with hf | hf
            · rw [hf]; exact hst
            · exact hf
          exact ih st1 hst1 heq2
        next => exact Except.noConfusion h
    · injection h with h2
      exact serr.noConfusion h2

theorem ng_serialize_array (recur : Recur)
    (H : ∀ c st v, preserves_full st (recur c st v))
    (Hng : ∀ c st v, st.force_inline = c →
      no_ghost (recur c st v)) (sp : spec) (ctx : Bool)
    (a : List Value) (fmt : array_format_info) (com : List String)
    (st : SState) (hst : st.force_inline = ctx) :
    no_ghost (serialize_array recur sp ctx st a fmt com) := by
  intro h
  simp only [serialize_array] at h
  split at h
  next err heq =>
    injection h with h2
    subst h2
    exact ng_resolve_array_format sp st.keys.isEmpty a fmt com heq
  next f0 heq0 =>
    split at h
    next hf =>
      split at h
      · injection h with h2
        exact serr.noConfusion h2
      · have hforce : st.force_inline = false := effective_aot hf
        have hc : ctx = false := by rw [← hst]; exact hforce
        subst hc
        exact ng_aot_loop recur H Hng sp a st hforce h
    next =>
      split at h
      · split at h
        next err heq =>
          injection h with h2
          subst h2
          exact ng_arr_oneline_loop recur Hng a st heq
        next => exact Except.noConfusion h
      · split at h
        next err heq =>
          injection h with h2
          subst h2
          exact ng_arr_ml_loop recur Hng fmt a st heq
        next => exact Except.noConfusion h

theorem ng_implicit_loop (recur : Recur)
    (H : ∀ c st v, preserves_full st (recur c st v))
    (Hng : ∀ c st v, st.force_inline = c →
      no_ghost (recur c st v)) :
    ∀ (t : List (String × Value)) (st : SState),
      st.force_inline = false →
      no_ghost (implicit_loop recur false st t) := by
  intro t
  induction t with
  | nil =>
    intro st hst h
    simp only [implicit_loop] at h
    exact Except.noConfusion h
  | cons kv rest ih =>
    obtain ⟨k, v⟩ := kv
    intro st hst h
    simp only [implicit_loop] at h
    split at h
    · injection h with h2
      exact serr.noConfusion h2
    · split at h
      next err heq =>
        injection h with h2
        subst h2
        split at heq
        · split at heq
          · injection heq with h3
            exact serr.noConfusion h3
          · exact Except.noConfusion heq
        · exact ng_implicit_aot_check _ _ heq
        · exact Except.noConfusion heq
      next heq =>
        split at h
        next err heq2 =>
          injection h with h2
          subst h2
          exact Hng false { st with keys := st.keys ++ [k] } v hst heq2
        next s st1 heq2 =>
          split at h
          next err heq3 =>
            injection h with h2
            subst h2
            obtain ⟨-, -, hf1⟩ :=
              H false { st with keys := st.keys ++ [k] } v s st1 heq2
            have hst1 : st1.force_inline = false := by
              rcases hf1 with hf | hf
              · rw [hf]; exact hst
              · exact hf
            exact ih { st1 with keys := st1.keys.dropLast } hst1 heq3
          next => exact Except.noConfusion h

theorem ng_serialize_table (recur : Recur)
    (H : ∀ c st v, preserves_full st (recur c st v))
    (Hng : ∀ c st v, st.force_inline = c →
      no_ghost (recur c st v)) (sp : spec) (fuel : Nat) (ctx : Bool)
    (t : List (String × Value)) (fmt : table_format_info) (com : List String)
    (st : SState) (hst : st.force_inline = ctx) :
    no_ghost (serialize_table recur sp fuel ctx st t fmt com) := by
  intro h
  simp only [serialize_table] at h
  split at h
  · split at h
    · exact ng_format_ml_inline_table recur Hng st t fmt h
    · exact ng_format_inline_table recur Hng sp st t fmt h
  next hforce =>
    have hf : st.force_inline = false := by
      cases hx : st.force_inline
      · rfl
      · exact absurd hx hforce
    have hc : ctx = false := by rw [← hst]; exact hf
    subst hc
    split at h
    · repeat' split at h
      all_goals
        first
        | exact Except.noConfusion h
        | (injection h with h2; subst h2;
           exact ng_format_ml_table recur H Hng sp t fmt st hf (by assumption))
    · exact ng_format_inline_table recur Hng sp st t fmt h
    · exact ng_format_ml_inline_table recur Hng st t fmt h
    · split at h
      · injection h with h2
        exact serr.noConfusion h2
      · exact ng_format_dotted_table recur Hng sp fuel t fmt _ st h
    · exact ng_implicit_loop recur H Hng t st hf h

theorem ng_serialize_value (sp : spec) :
    ∀ (fuel : Nat) (ctx : Bool) (st : SState) (v : Value),
      st.force_inline = ctx →
      no_ghost (serialize_value sp fuel ctx st v) := by
  intro fuel
  induction fuel with
  | zero =>
    intro ctx st v hst h
    simp only [serialize_value] at h
    injection h with h2
    exact serr.noConfusion h2
  | succ fuel ih =>
    intro ctx st v hst h
    simp only [serialize_value] at h
    split at h
    next hcond => exact hcond hst
    next hcond =>
      split at h
      · exact Except.noConfusion h
      · split at h
        next err heq =>
          injection h with h2
          subst h2
          exact ng_serialize_integer _ _ _ heq
        next => exact Except.noConfusion h
      · exact Except.noConfusion h
      · split at h
        next err heq =>
          injection h with h2
          subst h2
          exact ng_serialize_string _ _ _ heq
        next => exact Except.noConfusion h
      · exact Except.noConfusion h
      · exact Except.noConfusion h
      · exact Except.noConfusion h
      · exact Except.noConfusion h
      · exact ng_serialize_array (serialize_value sp fuel)
          (pres_serialize_value sp fuel) ih sp ctx _ _ _ st hst h
      · repeat' split at h
        all_goals
          first
          | exact Except.noConfusion h
          | (injection h with h2; subst h2;
             exact ng_serialize_table (serialize_value sp fuel)
               (pres_serialize_value sp fuel) ih sp fuel ctx _ _ _ st hst
               (by assumption))
      · split at h
        · exact Except.noConfusion h
        · injection h with h2
          exact serr.noConfusion h2

/-- C1 (code bug): an implicit table whose child is an array of tables with
a non-multiline element form is claimed to be accepted (the element is in
implicit form, so no ImplicitTableChild error should arise), but the
source's short-circuit `e.as_table_fmt().fmt != multiline &&
v.as_table_fmt().fmt != implicit` (serializer.hpp:716-717) evaluates the
second accessor on the ARRAY `v` itself, which throws a type error: the
embedded renderer fails with `type_error` on this valid input instead of
rendering the child recursively. -/
theorem C1_implicit_aot_type_error :
    serialize_value default_spec 6 false init_state c1_value =
      Except.error serr.type_error := rfl

/-- C2: the inline-forced flag of the serializer agrees with the
inline-descendant ghost context at every dispatch of the driver: the
instrumented driver compares `force_inline` with the ghost flag `ctx`
(true exactly on descendants of inline-context containers) at every
recursion point and fails with the distinguished `ghost_inline_mismatch`
error on disagreement, and that error is unreachable whenever flag and
context agree at the entry call — in particular the flag is still true
for the remaining siblings inside an enclosing inline container, since
those recursion points are dispatches too. -/
theorem C2_inline_forced_flag (sp : spec) (fuel : Nat) (ctx : Bool)
    (st : SState) (v : Value) (h : st.force_inline = ctx) :
    serialize_value sp fuel ctx st v ≠
      Except.error serr.ghost_inline_mismatch :=
  ng_serialize_value sp fuel ctx st v h

theorem C2_witness :
    init_state.force_inline = false ∧
      serialize_value default_spec 3 false init_state
          (Value.table [("x", Value.array [Value.integer 1 {} [],
            Value.integer 2 {} []] { fmt := array_format.oneline } [])]
            { fmt := table_format.multiline } []) ≠
        Except.error serr.ghost_inline_mismatch :=
  ⟨rfl, C2_inline_forced_flag default_spec 3 false init_state _ rfl⟩

/- ------------------------------------------------------------------
   The multiline-inline table (claim C6)
   ------------------------------------------------------------------ -/

/-- The multiline-inline loop renders every entry from the same key path
and indent (both are preserved across entries), so it agrees with the
per-entry specification-side renderer `ml_inline_entry`. -/
theorem ml_inline_loop_spec (recur : Recur)
    (H : ∀ c st v, preserves_full st (recur c st v)) (fmt : table_format_info) :
    ∀ (t : List (String × Value)) (st : SState),
      match mapE (ml_inline_entry recur fmt st.keys st.current_indent) t with
      | Except.error e => ml_inline_table_loop recur fmt st t = Except.error e
      | Except.ok bs =>
        ∃ st1, ml_inline_table_loop recur fmt st t =
            Except.ok (concat_all bs, st1) ∧
          st1.keys = st.keys ∧ st1.current_indent = st.current_indent := by
  intro t
  induction t with
  | nil =>
    intro st
    exact ⟨st, rfl, rfl, rfl⟩
  | cons kv rest ih =>
    obtain ⟨k, v⟩ := kv
    intro st
    simp only [mapE, ml_inline_entry, ml_inline_table_loop]
    cases hrec : recur true { st with force_inline := true } v with
    | error e => simp only [hrec]
    | ok p =>
      obtain ⟨s, st1⟩ := p
      simp only [hrec]
      obtain ⟨hk1, hi1, -⟩ := H true { st with force_inline := true } v s st1 hrec
      have ihst1 := ih st1
      rw [hk1, hi1] at ihst1
      cases hmap : mapE (ml_inline_entry recur fmt st.keys st.current_indent)
          rest with
      | error e =>
        rw [hmap] at ihst1
        simp only [hmap]
        rw [ihst1]
      | ok bs =>
        rw [hmap] at ihst1
        simp only [hmap]
        obtain ⟨st2, hloop, hk2, hi2⟩ := ihst1
        refine ⟨st2, ?_, by rw [hk2], by rw [hi2]⟩
        rw [hloop]
        simp [concat_all]

/-- C6 (corrected): a table rendered in multiline_oneline form opens with a
brace and newline, renders each entry as its comments, an indent at
body_indent, the RAW key (the source concatenates `kv.first` without the
key encoder), ` = `, the inline-forced value and `,\n` — and then, when the
table is non-empty, POPS the final comma and newline before the closing
indent (at closing_indent) and brace, so the last entry is not followed by
`,\n` in the output. -/
theorem C6_ml_inline_table (sp : spec) (fuel : Nat) (st : SState)
    (t : List (String × Value)) (fmt : table_format_info) :
    match mapE (ml_inline_entry (serialize_value sp fuel) fmt st.keys
        (st.current_indent + fmt.body_indent)) t with
    | Except.error e =>
      format_ml_inline_table (serialize_value sp fuel) st t fmt =
        Except.error e
    | Except.ok bs =>
      format_ml_inline_table (serialize_value sp fuel) st t fmt =
        Except.ok ((if t.isEmpty then lcurlC :: '\n' :: concat_all bs
            else (lcurlC :: '\n' :: concat_all bs).dropLast.dropLast) ++
          format_indent fmt.indent_type
            (st.current_indent + fmt.closing_indent) ++
          [rcurlC], { st with force_inline := false }) := by
  have hspec := ml_inline_loop_spec (serialize_value sp fuel)
    (pres_serialize_value sp fuel) fmt t
    { st with current_indent := st.current_indent + fmt.body_indent }
  cases hmap : mapE (ml_inline_entry (serialize_value sp fuel) fmt st.keys
      (st.current_indent + fmt.body_indent)) t with
  | error e =>
    rw [hmap] at hspec
    show format_ml_inline_table (serialize_value sp fuel) st t fmt =
      Except.error e
    simp only [format_ml_inline_table]
    rw [hspec]
  | ok bs =>
    rw [hmap] at hspec
    obtain ⟨st1, hloop, hk1, hi1⟩ := hspec
    show format_ml_inline_table (serialize_value sp fuel) st t fmt =
      Except.ok ((if t.isEmpty then lcurlC :: '\n' :: concat_all bs
          else (lcurlC :: '\n' :: concat_all bs).dropLast.dropLast) ++
        format_indent fmt.indent_type
          (st.current_indent + fmt.closing_indent) ++
        [rcurlC], { st with force_inline := false })
    simp only [format_ml_inline_table]
    rw [hloop]
    have hind : st1.current_indent - fmt.body_indent = st.current_indent := by
      rw [hi1]
      show st.current_indent + fmt.body_indent - fmt.body_indent =
        st.current_indent
      omega
    have hstate : ({ st1 with
        current_indent := st1.current_indent - fmt.body_indent,
        force_inline := false } : SState) =
        { st with force_inline := false } := by
      apply SState_eq
      · exact hk1
      · rfl
      · exact hind
    show Except.ok
        ((if t.isEmpty then lcurlC :: '\n' :: concat_all bs
            else (lcurlC :: '\n' :: concat_all bs).dropLast.dropLast) ++
          format_indent fmt.indent_type
            (st1.current_indent - fmt.body_indent + fmt.closing_indent) ++
          [rcurlC],
          SState.mk st1.keys false
            (st1.current_indent - fmt.body_indent)) = _
    rw [hstate, hind]

/-- C6, the counterexample input evaluated: the one-entry table `a b = 1`
in multiline_oneline form renders with no comma at all (the claimed `,\n`
after the last entry is popped) and with the key `a b` copied raw, even
though the key encoder would have quoted it. -/
theorem C6_counterexample :
    serialize_value default_spec 6 false init_state
        (Value.table c6_entries c6_fmt []) =
      Except.ok (("\x7b\na b = 1\x7d").toList, init_state) ∧
    ',' ∉ ("\x7b\na b = 1\x7d").toList ∧
    format_key default_spec "a b" =
      quoteC :: ("a b").toList ++ [quoteC] :=
  ⟨rfl, by decide, rfl⟩

/- ------------------------------------------------------------------
   The two-pass multi-line table body (claim C4)
   ------------------------------------------------------------------ -/

/-- The first pass of the multi-line table body renders, in container
order, exactly the entries not postponed by `format_later`, each from the
same key path and indent. -/
theorem ml_table_pass1_spec (recur : Recur)
    (H : ∀ c st v, preserves_full st (recur c st v)) (c : Bool) (sp : spec)
    (fmt : table_format_info) :
    ∀ (t : List (String × Value)) (st : SState), st.force_inline = false →
      match mapE (ml_table_leaf_entry recur c sp fmt st.keys
          st.current_indent) (t.filter fun kv => !format_later kv.2) with
      | Except.error e =>
        ml_table_pass1 recur c sp fmt st t = Except.error e
      | Except.ok bs =>
        ∃ st1, ml_table_pass1 recur c sp fmt st t =
            Except.ok (concat_all bs, st1) ∧
          st1.keys = st.keys ∧ st1.current_indent = st.current_indent := by
  intro t
  induction t with
  | nil =>
    intro st hst
    exact ⟨st, rfl, rfl, rfl⟩
  | cons kv rest ih =>
    obtain ⟨k, v⟩ := kv
    intro st hst
    cases hl : format_later v with
    | true =>
      have hfilter : (((k, v) :: rest).filter fun kv => !format_later kv.2) =
          rest.filter fun kv => !format_later kv.2 := by
        simp [List.filter_cons, hl]
      have hpass : ml_table_pass1 recur c sp fmt st ((k, v) :: rest) =
          ml_table_pass1 recur c sp fmt st rest := by
        simp [ml_table_pass1, hl]
      rw [hfilter, hpass]
      exact ih st hst
    | false =>
      have hfilter : (((k, v) :: rest).filter fun kv => !format_later kv.2) =
          (k, v) :: (rest.filter fun kv => !format_later kv.2) := by
        simp [List.filter_cons, hl]
      rw [hfilter]
      simp only [ml_table_pass1]
      rw [if_neg (by simp [hl])]
      simp only [mapE, ml_table_leaf_entry]
      try dsimp only
      rw [hst]
      cases hrec : recur c (SState.mk (st.keys ++ [k]) false
          st.current_indent) v with
      | error e =>
        simp only [hrec]
      | ok p =>
        obtain ⟨s, st1⟩ := p
        simp only [hrec]
        obtain ⟨hk1, hi1, hf1⟩ := H c (SState.mk (st.keys ++ [k]) false
          st.current_indent) v s st1 hrec
        try dsimp only at hk1 hi1 hf1
        have hst1 : st1.force_inline = false := by
          rcases hf1 with hf | hf
          · exact hf
          · exact hf
        have hkd : st1.keys.dropLast = st.keys := by
          rw [hk1]
          exact List.dropLast_concat
        have ih2 := ih (SState.mk st1.keys.dropLast st1.force_inline
          st1.current_indent) hst1
        try dsimp only at ih2
        rw [hkd, hi1, hst1] at ih2
        rw [hkd, hi1, hst1]
        cases hmap : mapE (ml_table_leaf_entry recur c sp fmt st.keys
            st.current_indent) (rest.filter fun kv => !format_later kv.2) with
        | error e =>
          rw [hmap] at ih2
          simp only [hmap]
          rw [ih2]
        | ok bs =>
          rw [hmap] at ih2
          simp only [hmap]
          obtain ⟨st2, hloop, hk2, hi2⟩ := ih2
          refine ⟨st2, ?_, hk2, hi2⟩
          rw [hloop]
          simp [concat_all, List.append_assoc]

/-- The second pass of the multi-line table body renders, in container
order, exactly the entries postponed by `format_later`, each from the same
key path and indent. -/
theorem ml_table_pass2_spec (recur : Recur)
    (H : ∀ c st v, preserves_full st (recur c st v)) (c : Bool) :
    ∀ (t : List (String × Value)) (st : SState), st.force_inline = false →
      match mapE (ml_table_sub_entry recur c st.keys st.current_indent)
          (t.filter fun kv => format_later kv.2) with
      | Except.error e =>
        ml_table_pass2 recur c st t = Except.error e
      | Except.ok bs =>
        ∃ st1, ml_table_pass2 recur c st t =
            Except.ok (concat_all bs, st1) ∧
          st1.keys = st.keys ∧ st1.current_indent = st.current_indent := by
  intro t
  induction t with
  | nil =>
    intro st hst
    exact ⟨st, rfl, rfl, rfl⟩
  | cons kv rest ih =>
    obtain ⟨k, v⟩ := kv
    intro st hst
    cases hl : format_later v with
    | false =>
      have hfilter : (((k, v) :: rest).filter fun kv => format_later kv.2) =
          rest.filter fun kv => format_later kv.2 := by
        simp [List.filter_cons, hl]
      have hpass : ml_table_pass2 recur c st ((k, v) :: rest) =
          ml_table_pass2 recur c st rest := by
        simp [ml_table_pass2, hl]
      rw [hfilter, hpass]
      exact ih st hst
    | true =>
      have hfilter : (((k, v) :: rest).filter fun kv => format_later kv.2) =
          (k, v) :: (rest.filter fun kv => format_later kv.2) := by
        simp [List.filter_cons, hl]
      rw [hfilter]
      simp only [ml_table_pass2]
      rw [if_neg (by simp [hl])]
      simp only [mapE, ml_table_sub_entry]
      try dsimp only
      rw [hst]
      cases hrec : recur c (SState.mk (st.keys ++ [k]) false
          st.current_indent) v with
      | error e =>
        simp only [hrec]
      | ok p =>
        obtain ⟨s, st1⟩ := p
        simp only [hrec]
        obtain ⟨hk1, hi1, hf1⟩ := H c (SState.mk (st.keys ++ [k]) false
          st.current_indent) v s st1 hrec
        try dsimp only at hk1 hi1 hf1
        have hst1 : st1.force_inline = false := by
          rcases hf1 with hf | hf
          · exact hf
          · exact hf
        have hkd : st1.keys.dropLast = st.keys := by
          rw [hk1]
          exact List.dropLast_concat
        have ih2 := ih (SState.mk st1.keys.dropLast st1.force_inline
          st1.current_indent) hst1
        try dsimp only at ih2
        rw [hkd, hi1, hst1] at ih2
        rw [hkd, hi1, hst1]
        cases hmap : mapE (ml_table_sub_entry recur c st.keys
            st.current_indent) (rest.filter fun kv => format_later kv.2) with
        | error e =>
          rw [hmap] at ih2
          simp only [hmap]
          rw [ih2]
        | ok bs =>
          rw [hmap] at ih2
          simp only [hmap]
          obtain ⟨st2, hloop, hk2, hi2⟩ := ih2
          refine ⟨st2, ?_, hk2, hi2⟩
          rw [hloop]
          simp [concat_all, List.append_assoc]

/-- C4 (corrected): the multi-line table body is two-pass over the same
entry sequence — the first pass renders, in container order, exactly the
entries not postponed by `format_later` at the body indent, the second
pass exactly the postponed ones at the original indent — but the blank
line after the leaf block is appended whenever the FIRST pass produced
any output, regardless of whether the second block is empty (the source
tests only `!retval.empty()`, serializer.hpp:924-927). -/
theorem C4_ml_table_two_pass (sp : spec) (fuel : Nat) (st : SState)
    (t : List (String × Value)) (fmt : table_format_info)
    (hst : st.force_inline = false) :
    (format_ml_table (serialize_value sp fuel) false sp st t fmt).map
        Prod.fst =
      ml_table_two_pass_spec (serialize_value sp fuel) false sp st t fmt := by
  have h1 := ml_table_pass1_spec (serialize_value sp fuel)
    (pres_serialize_value sp fuel) false sp fmt t
    { st with current_indent := st.current_indent + fmt.body_indent } hst
  try dsimp only at h1
  simp only [format_ml_table, ml_table_two_pass_spec]
  cases hmap1 : mapE (ml_table_leaf_entry (serialize_value sp fuel) false sp
      fmt st.keys (st.current_indent + fmt.body_indent))
      (t.filter fun kv => !format_later kv.2) with
  | error e =>
    rw [hmap1] at h1
    rw [h1]
    rfl
  | ok bs1 =>
    rw [hmap1] at h1
    obtain ⟨st1, hp1, hk1, hi1⟩ := h1
    rw [hp1]
    obtain ⟨-, -, hf1⟩ := pres_ml_table_pass1 (serialize_value sp fuel)
      (pres_serialize_value sp fuel) false sp fmt t
      { st with current_indent := st.current_indent + fmt.body_indent }
      (concat_all bs1) st1 hp1
    have hst1 : st1.force_inline = false := by
      rcases hf1 with hf | hf
      · rw [hf]; exact hst
      · exact hf
    have hci : st1.current_indent - fmt.body_indent = st.current_indent := by
      rw [hi1]
      show st.current_indent + fmt.body_indent - fmt.body_indent =
        st.current_indent
      omega
    have h2 := ml_table_pass2_spec (serialize_value sp fuel)
      (pres_serialize_value sp fuel) false t
      (SState.mk st1.keys st1.force_inline
        (st1.current_indent - fmt.body_indent)) hst1
    try dsimp only at h2
    rw [hk1, hci, hst1] at h2
    try dsimp only
    rw [hk1, hci, hst1]
    cases hmap2 : mapE (ml_table_sub_entry (serialize_value sp fuel) false
        st.keys st.current_indent) (t.filter fun kv => format_later kv.2) with
    | error e =>
      rw [hmap2] at h2
      rw [h2]
      all_goals rfl
    | ok bs2 =>
      rw [hmap2] at h2
      obtain ⟨st2, hp2, hk2, hi2⟩ := h2
      rw [hp2]
      all_goals rfl

theorem C4_witness :
    init_state.force_inline = false ∧
      (format_ml_table (serialize_value default_spec 6) false default_spec
          init_state c4_entries c4_fmt).map Prod.fst =
        ml_table_two_pass_spec (serialize_value default_spec 6) false
          default_spec init_state c4_entries c4_fmt :=
  ⟨rfl, C4_ml_table_two_pass default_spec 6 init_state c4_entries c4_fmt rfl⟩

/-- C4, the counterexample input evaluated: a multi-line table whose second
block is empty (no postponed entry at all) still gets the blank line after
its leaf block — the output is `a = 1\n\n`, refuting the claimed "only
when both blocks are non-empty". -/
theorem C4_counterexample :
    serialize_value default_spec 6 false init_state
        (Value.table c4_entries c4_fmt []) =
      Except.ok (("a = 1\n\n").toList, init_state) ∧
    c4_entries.filter (fun kv => format_later kv.2) = [] :=
  ⟨rfl, rfl⟩

theorem C3_witness :
    ({} : array_format_info).fmt = array_format.default_format ∧
    (((resolve_array_format default_spec (["k"] : List String).isEmpty
          [Value.table [] {} []] ({} : array_format_info) [] =
        Except.ok array_format.array_of_tables) ↔
      ((["k"] : List String) ≠ [] ∧
        ([Value.table [] {} []] : List Value) ≠ [] ∧
        ([] : List String) = [] ∧
        ∀ e ∈ ([Value.table [] {} []] : List Value), e.is_table = true)) ∧
    (∀ (force : Bool) (f : array_format),
      (effective_array_format force f = array_format.array_of_tables ↔
        (f = array_format.array_of_tables ∧ force = false)) ∧
      (force = true → f = array_format.array_of_tables →
        effective_array_format force f = array_format.multiline) ∧
      (¬(force = true ∧ f = array_format.array_of_tables) →
        effective_array_format force f = f))) :=
  ⟨rfl, C3_array_format_resolution default_spec ["k"] [Value.table [] {} []]
    {} [] rfl⟩

theorem C7_witness :
    one_float.is_nan = false ∧ one_float.is_inf = false ∧
    ({ fmt := floating_format.defaultfloat } :
        floating_format_info).fmt = floating_format.defaultfloat ∧
    ('.' ∈ serialize_floating one_float
        { fmt := floating_format.defaultfloat } default_spec ∨
      'e' ∈ serialize_floating one_float
        { fmt := floating_format.defaultfloat } default_spec ∨
      'E' ∈ serialize_floating one_float
        { fmt := floating_format.defaultfloat } default_spec) :=
  ⟨rfl, rfl, rfl, C7_float_default_point one_float
    { fmt := floating_format.defaultfloat } default_spec rfl rfl rfl⟩

theorem C9_witness :
    ({ spacer := 3 } : integer_format_info).fmt = integer_format.dec ∧
    ({ spacer := 3 } : integer_format_info).width = 0 ∧
    0 < ({ spacer := 3 } : integer_format_info).spacer ∧
    default_spec.ext_num_suffix = false ∧
    (∃ d : List Char,
      serialize_integer (-42) { spacer := 3 } default_spec =
        Except.ok ((if (-42 : Int) < 0 then ['-'] else []) ++ d) ∧
      d.filter (fun c => c != '_') =
        nat_base_chars 10 false (Int.natAbs (-42)) ∧
      d.getD 0 ' ' ≠ '_' ∧
      ∀ j, j < d.length →
        (d.reverse.getD j ' ' = '_' ↔ j % (3 + 1) = 3)) :=
  ⟨rfl, rfl, by decide, rfl,
    C9_integer_decimal_spacer (-42) { spacer := 3 } default_spec rfl rfl
      (by decide) rfl⟩

theorem C10_witness :
    ({ ext_num_suffix := true } : spec).ext_num_suffix = true ∧
    ({ suffix := "f" } : floating_format_info).suffix ≠ "" ∧
    ((nan_float.is_nan = true →
        serialize_floating nan_float { suffix := "f" }
            { ext_num_suffix := true } =
          (if nan_float.sign_bit then ['-'] else []) ++ "nan".toList ++
            '_' :: ("f" : String).toList) ∧
      (nan_float.is_nan = false → nan_float.is_inf = true →
        serialize_floating nan_float { suffix := "f" }
            { ext_num_suffix := true } =
          (if nan_float.sign_bit then ['-'] else []) ++ "inf".toList ++
            '_' :: ("f" : String).toList)) :=
  ⟨rfl, by decide, C10_nan_inf_suffix nan_float { suffix := "f" }
    { ext_num_suffix := true } rfl (by decide)⟩

end Toml

